import Mathlib

/-!
Verification development for the robotidy rewrite pipeline
(`src/robotidy/transformers.py` and `src/robotidy/transformers/*.py`).

The Python data model (Robot Framework tokens, statements and sections) is
shallowly embedded: tokens are (type, value) pairs, statements are token
lists, visitors become pure functions, in-place mutation becomes explicit
state passing, and Python exceptions (IndexError on out-of-range subscripts)
become explicit `errored` results.

Helpers that live in modules not shipped with the sources
(`robotidy.utils`, `robotidy.decorators`, `robotidy.exceptions`, and the
external `robot` library) are modelled from the spec and are marked as such
in their doc comments.
-/

namespace Robotidy

/-- Token types used by the transformers under verification. Mirrors the
subset of `robot.api.parsing.Token` type constants the sources touch. -/
inductive TokType where
  | SEPARATOR
  | EOL
  | EOS
  | CONTINUATION
  | COMMENT
  | ARGUMENT
  | ASSIGN
  | KEYWORD
  | KEYWORD_NAME
  | VARIABLE
  | IFTOK
  | ELSETOK
  | ELSEIFTOK
  | ENDTOK
  | SETUP
  | TEARDOWN
  | TEMPLATE
  | TIMEOUT
  | TAGS
  | TEST_SETUP
  | TEST_TEARDOWN
  | TEST_TEMPLATE
  | TEST_TIMEOUT
  | DEFAULT_TAGS
  | DOCUMENTATION
  | LIBRARY
  deriving DecidableEq, Repr

/-- A Robot Framework token: a (kind, text) pair.  Source positions are not
needed by the verified rules except for the selection window, which carries
them on statements/sections instead. -/
structure Tok where
  typ : TokType
  value : String
  deriving DecidableEq, Repr

/-- The run-wide formatting configuration (`self.formatting_config`):
separator width, default separator text and the optional selection window. -/
structure FormattingConfig where
  space_count : Nat := 4
  separator : String := "    "
  start_line : Option Nat := none
  end_line : Option Nat := none
  deriving DecidableEq, Repr

/-- Default formatting configuration (spacecount 4, no selection window). -/
def cfgD : FormattingConfig := {}

/-- A string of `n` spaces (`n * ' '` in Python). -/
def spaces (n : Nat) : String :=
  String.mk (List.replicate n ' ')

/-- Modelled from the spec: `robotidy.utils.normalize_name` is not part of
the sources; per the spec keyword names are compared case- and
space-insensitively (underscores are ignored as well), so the model
lowercases and drops spaces and underscores. -/
def normalize_name (s : String) : String :=
  String.mk ((s.data.map Char.toLower).filter (fun c => c ≠ ' ' ∧ c ≠ '_'))

/-- Modelled from the spec (§4.2): `robotidy.decorators.check_start_end_line`
is not part of the sources; a node whose span lies entirely outside the
configured selection window is passed through unmodified.  `true` means the
node is skipped. -/
def node_outside_selection_lines (lineno end_lineno : Nat)
    (cfg : FormattingConfig) : Bool :=
  (match cfg.start_line with
   | some s => end_lineno < s
   | none => false) ||
  (match cfg.end_line with
   | some e => e < lineno
   | none => false)

/-! ## ReplaceRunKeywordIf (`transformers.py` lines 113-239) -/

/-- `ReplaceRunKeywordIf.split_args_on_delimeters`: split `args` at every
token whose value is one of `delims`; each delimiter token starts a new
segment, the leading segment holds everything before the first delimiter
(and is empty when `args` starts with a delimiter, matching the
`args[prev_index:split_point]` slicing of the source). -/
def split_args_go (delims : List String) (acc : List Tok) :
    List Tok → List (List Tok)
  | [] => [acc.reverse]
  | t :: ts =>
    if t.value ∈ delims then acc.reverse :: split_args_go delims [t] ts
    else split_args_go delims (t :: acc) ts

/-- Top-level entry for `split_args_on_delimeters`. -/
def split_args_on_delimeters (args : List Tok) (delims : List String) :
    List (List Tok) :=
  split_args_go delims [] args

/-- `insert_separators` (`transformers.py` lines 104-110): prefix the token
list with an indentation separator, put a `space_count`-wide separator
between consecutive tokens and terminate with an EOL token.  The source
would raise IndexError on an empty list; it is never called with one. -/
def insert_separators (indent : String) (tokens : List Tok)
    (cfg : FormattingConfig) : List Tok :=
  match tokens.getLast? with
  | none => []
  | some last =>
    Tok.mk .SEPARATOR (indent ++ spaces cfg.space_count) ::
      (tokens.dropLast.flatMap
        (fun t => [t, Tok.mk .SEPARATOR (spaces cfg.space_count)]) ++
       [last, Tok.mk .EOL "\n"])

/-- `ReplaceRunKeywordIf.args_to_keyword`: build one keyword-call statement
(as its token list) from assignment targets plus argument tokens.  `none`
models the IndexError the source raises on `arg_tokens[0]` when the list is
empty. -/
def args_to_keyword (cfg : FormattingConfig) (arg_tokens : List Tok)
    (assign : List Tok) (indent : String) : Option (List Tok) :=
  match arg_tokens with
  | [] => none
  | a :: rest =>
    some (insert_separators indent
      (assign ++ [Tok.mk .KEYWORD a.value] ++ rest) cfg)

/-- The Python `create_keywords` returns either a single `KeywordCall` or a
list of them (for `Run Keywords` bodies); the body of an `If` block carries
whichever value was produced. -/
inductive KwBody where
  | one (kw : List Tok)
  | many (kws : List (List Tok))
  deriving DecidableEq, Repr

/-- A Python list comprehension whose element expression can raise: the
whole list is produced only when every element is. -/
def traverse_opt (f : α → Option β) : List α → Option (List β)
  | [] => some []
  | x :: xs =>
    match f x, traverse_opt f xs with
    | some y, some ys => some (y :: ys)
    | _, _ => none

/-- `ReplaceRunKeywordIf.create_keywords`: if the first argument is
`Run Keywords` (compared through `normalize_name`), split the arguments on
`AND` and build one keyword call per segment with the segment's leading
token dropped (IndexError — `none` — when a segment loses its only token);
otherwise build a single keyword call. -/
def create_keywords (cfg : FormattingConfig) (arg_tokens : List Tok)
    (assign : List Tok) (indent : String) : Option KwBody :=
  match arg_tokens with
  | [] => none
  | a :: _ =>
    if normalize_name a.value = "runkeywords" then
      (traverse_opt
        (fun kw => args_to_keyword cfg (kw.drop 1) assign indent)
        (split_args_on_delimeters arg_tokens ["AND"])).map .many
    else
      (args_to_keyword cfg arg_tokens assign indent).map .one

/-- The three header statements an `If` block can carry, with the token
lists the source builds for them (`IfHeader`, `ElseIfHeader`, `ElseHeader`). -/
inductive Header where
  | ifH (toks : List Tok)
  | elseifH (toks : List Tok)
  | elseH (toks : List Tok)
  deriving DecidableEq, Repr

/-- The `robot.api.parsing.If` model node as `create_branched` builds it:
header, body, optional `orelse` link to the next branch and the optional
`end` statement (attached only to the outermost block). -/
inductive IfChain where
  | node (header : Header) (body : KwBody) (orelse : Option IfChain)
      (endt : Option (List Tok))

/-- Result of `create_branched`: the original node passed through unchanged,
a Python exception (IndexError), or the rewritten `If` block. -/
inductive RKIResult where
  | unchanged
  | errored
  | rewritten (c : IfChain)

/-- Whether a result models a propagating Python exception. -/
def is_errored : RKIResult → Bool
  | .errored => true
  | _ => false

/-- `prev_if.end = end`: attach the END statement to the outermost block. -/
def rki_set_end (c : IfChain) (e : List Tok) : IfChain :=
  match c with
  | .node h b o _ => .node h b o (some e)

/-- Outcome of one iteration of the branch loop in `create_branched`: an
early `return node` (arity violation), a Python IndexError, or a built
header plus keyword statements. -/
inductive StepRes where
  | stepUnchanged
  | stepErrored
  | stepBlock (h : Header) (b : KwBody)

/-- ELSE branch body of the loop: `ElseHeader` from the source's token list,
arity guard `len(branch) < 2`, keywords from the remaining tokens. -/
def rki_step_else (cfg : FormattingConfig) (sep : Tok) (assign : List Tok)
    (bs : List Tok) : StepRes :=
  match bs with
  | [] => .stepUnchanged
  | _ =>
    match create_keywords cfg bs assign sep.value with
    | none => .stepErrored
    | some body =>
      .stepBlock (.elseH [sep, Tok.mk .ELSETOK "ELSE", Tok.mk .EOL "\n"]) body

/-- ELSE IF branch body of the loop: arity guard `len(branch) < 3`,
`ElseIfHeader` carrying the condition token `branch[1]`, keywords from
`branch[2:]`. -/
def rki_step_elseif (cfg : FormattingConfig) (sep : Tok) (assign : List Tok)
    (bs : List Tok) : StepRes :=
  match bs with
  | [] => .stepUnchanged
  | [_] => .stepUnchanged
  | cond :: args =>
    match create_keywords cfg args assign sep.value with
    | none => .stepErrored
    | some body =>
      .stepBlock (.elseifH [sep, Tok.mk .ELSEIFTOK "ELSE IF",
        Tok.mk .SEPARATOR (spaces cfg.space_count), cond,
        Tok.mk .EOL "\n"]) body

/-- IF branch body of the loop: arity guard `len(branch) < 2`, `IfHeader`
carrying the condition token `branch[0]`, keywords from `branch[1:]`. -/
def rki_step_if (cfg : FormattingConfig) (sep : Tok) (assign : List Tok)
    (t : Tok) (bs : List Tok) : StepRes :=
  match bs with
  | [] => .stepUnchanged
  | _ =>
    match create_keywords cfg bs assign sep.value with
    | none => .stepErrored
    | some body =>
      .stepBlock (.ifH [sep, Tok.mk .IFTOK "IF",
        Tok.mk .SEPARATOR (spaces cfg.space_count), t,
        Tok.mk .EOL "\n"]) body

/-- One iteration of the `for branch in reversed(list(...))` loop of
`create_branched`: classify the branch by its leading token (IndexError —
`stepErrored` — on an empty branch) and dispatch to the matching header
builder. -/
def rki_step (cfg : FormattingConfig) (sep : Tok) (assign : List Tok)
    (b : List Tok) : StepRes :=
  match b with
  | [] => .stepErrored
  | t :: bs =>
    if t.value = "ELSE" then rki_step_else cfg sep assign bs
    else if t.value = "ELSE IF" then rki_step_elseif cfg sep assign bs
    else rki_step_if cfg sep assign t bs

/-- The loop of `create_branched`: `branches_rev` is the branch list already
reversed; `prev` plays the role of `prev_if`.  A `stepUnchanged` models the
source's `return node`, a `stepErrored` a propagating exception; after the
loop `prev_if.end = end` attaches the END statement to the outermost block
(AttributeError — `errored` — when no block was built). -/
def rki_build (cfg : FormattingConfig) (sep : Tok) (assign : List Tok)
    (endtoks : List Tok) : List (List Tok) → Option IfChain → RKIResult
  | [], none => .errored
  | [], some c => .rewritten (rki_set_end c endtoks)
  | b :: rest, prev =>
    match rki_step cfg sep assign b with
    | .stepUnchanged => .unchanged
    | .stepErrored => .errored
    | .stepBlock hd body =>
      rki_build cfg sep assign endtoks rest (some (.node hd body prev none))

/-- A `KeywordCall` model node, reduced to its token list (the only part
`create_branched` reads). -/
structure KwCallNode where
  tokens : List Tok
  deriving DecidableEq, Repr

/-- `node.get_tokens(type)`: all tokens of the given type, in order. -/
def get_tokens (n : KwCallNode) (ty : TokType) : List Tok :=
  n.tokens.filter (fun t => t.typ = ty)

/-- `ReplaceRunKeywordIf.create_branched` (lines 168-216): read the
indentation separator from `tokens[0]`, collect assignment and argument
tokens, bail out unchanged on fewer than two arguments, split the arguments
on `ELSE` / `ELSE IF`, build the branches from last to first and attach the
END statement to the outermost block. -/
def create_branched (cfg : FormattingConfig) (node : KwCallNode) : RKIResult :=
  match node.tokens.head? with
  | none => .errored
  | some separator =>
    let assign := get_tokens node .ASSIGN
    let raw_args := get_tokens node .ARGUMENT
    if raw_args.length < 2 then .unchanged
    else
      rki_build cfg separator assign
        [separator, Tok.mk .ENDTOK "END", Tok.mk .EOL "\n"]
        ((split_args_on_delimeters raw_args ["ELSE", "ELSE IF"]).reverse) none

/-- Branch arity check of the claim: an ELSE branch needs a keyword after
the delimiter, an ELSE IF branch needs a condition and a keyword, the IF
branch needs a condition and a keyword.  Mirrors the `len(branch) < n`
guards of `create_branched`; an empty branch satisfies no arity. -/
def branch_min_arity (b : List Tok) : Bool :=
  match b with
  | [] => false
  | t :: bs =>
    if t.value = "ELSE" then 1 ≤ bs.length
    else if t.value = "ELSE IF" then 2 ≤ bs.length
    else 2 ≤ b.length

/-- The argument tokens a branch passes to `create_keywords` (after its
delimiter and, for ELSE IF, its condition). -/
def branch_args (b : List Tok) : List Tok :=
  match b with
  | [] => []
  | t :: bs =>
    if t.value = "ELSE" then bs
    else if t.value = "ELSE IF" then bs.drop 1
    else b.drop 1

/-- Whether `create_keywords` succeeds on these argument tokens: they must
be non-empty, and a `Run Keywords` body must put at least one keyword token
between consecutive `AND` delimiters (each `AND` segment keeps two or more
tokens, counting the leading `Run Keywords` / `AND` marker). -/
def create_keywords_safe (args : List Tok) : Bool :=
  match args with
  | [] => false
  | a :: _ =>
    if normalize_name a.value = "runkeywords" then
      (split_args_on_delimeters args ["AND"]).all (fun kw => 2 ≤ kw.length)
    else true

/-- Branch classification by leading token, for stating the branch-count
law. -/
inductive HKind where
  | condIf
  | condElseIf
  | plainElse
  deriving DecidableEq, Repr

/-- The header kind a branch receives in `create_branched`. -/
def branch_kind (b : List Tok) : HKind :=
  match b.head? with
  | some t =>
    if t.value = "ELSE" then .plainElse
    else if t.value = "ELSE IF" then .condElseIf
    else .condIf
  | none => .condIf

/-- Header kind of a built header statement. -/
def header_kind : Header → HKind
  | .ifH _ => .condIf
  | .elseifH _ => .condElseIf
  | .elseH _ => .plainElse

/-- The list of blocks along the `orelse` chain, outermost first. -/
def chain_kinds : IfChain → List HKind
  | .node h _ o _ =>
    header_kind h :: (match o with
      | none => []
      | some c => chain_kinds c)

/-- The `end` fields along the `orelse` chain, outermost first. -/
def chain_ends : IfChain → List (Option (List Tok))
  | .node _ _ o e =>
    e :: (match o with
      | none => []
      | some c => chain_ends c)

/-- Kinds of an optional chain (empty for `none`). -/
def opt_kinds : Option IfChain → List HKind
  | none => []
  | some c => chain_kinds c

/-- End fields of an optional chain (empty for `none`). -/
def opt_ends : Option IfChain → List (Option (List Tok))
  | none => []
  | some c => chain_ends c

/-- Whether a branch starts with a token of the given value. -/
def seg_head_is (v : String) (b : List Tok) : Bool :=
  match b.head? with
  | some t => t.value = v
  | none => false

/-- Concrete `Run Keyword If` call used as witness:
`Run Keyword If  $\x7bc\x7d  Kw1  ELSE IF  $\x7bd\x7d  Kw2  ELSE  Kw3`. -/
def nodeW : KwCallNode :=
  ⟨[Tok.mk .SEPARATOR "    ", Tok.mk .KEYWORD_NAME "Run Keyword If",
    Tok.mk .ARGUMENT "$\x7bc\x7d", Tok.mk .ARGUMENT "Kw1",
    Tok.mk .ARGUMENT "ELSE IF", Tok.mk .ARGUMENT "$\x7bd\x7d",
    Tok.mk .ARGUMENT "Kw2", Tok.mk .ARGUMENT "ELSE",
    Tok.mk .ARGUMENT "Kw3", Tok.mk .EOL "\n"]⟩

/-- Concrete `Run Keyword If` call whose single branch invokes
`Run Keywords` with an `AND` delimiter directly after it (an empty joined
group): `Run Keyword If  $\x7bc\x7d  runkeywords  AND  Kw`. -/
def nodeX : KwCallNode :=
  ⟨[Tok.mk .SEPARATOR "    ", Tok.mk .KEYWORD_NAME "Run Keyword If",
    Tok.mk .ARGUMENT "$\x7bc\x7d", Tok.mk .ARGUMENT "runkeywords",
    Tok.mk .ARGUMENT "AND", Tok.mk .ARGUMENT "Kw", Tok.mk .EOL "\n"]⟩

/-- Concrete `Run Keyword If` call whose first argument is the `ELSE`
delimiter itself, producing an empty leading branch:
`Run Keyword If  ELSE  Kw`. -/
def nodeY : KwCallNode :=
  ⟨[Tok.mk .SEPARATOR "    ", Tok.mk .KEYWORD_NAME "Run Keyword If",
    Tok.mk .ARGUMENT "ELSE", Tok.mk .ARGUMENT "Kw", Tok.mk .EOL "\n"]⟩

/-! ## NormalizeNewLines (`transformers.py` lines 463-551)

The document model is reduced to what this rule observes: sections carry a
kind tag (the visitor dispatches `visit_TestCaseSection` /
`visit_KeywordSection` on the section's type) and a body of items; test
cases and keywords are items carrying their own bodies; a `Test Template`
setting statement carries whether it has a value.  Python object identity
(`node is self.last_test`) is modelled positionally: the pre-pass captures
whether the last body element is a test/keyword block, and the matching
block is the one at the last position of the trimmed body (trimming never
removes a trailing non-blank element, and freshly appended `EmptyLine`
statements are distinct objects). -/

/-- Body item of the NormalizeNewLines document model. -/
inductive NLItem where
  | emptyLine
  | testTemplate (hasValue : Bool)
  | plainStmt
  | testCase (body : List NLItem)
  | keywordDef (body : List NLItem)

/-- Section kind, as dispatched on by the visitor. -/
inductive NLKind where
  | testCases
  | keywords
  | plain
  deriving DecidableEq, Repr

/-- A section: kind plus body. -/
structure NLSection where
  kind : NLKind
  body : List NLItem

/-- `NormalizeNewLines.__init__` parameters. -/
structure NLConfig where
  test_case_lines : Nat := 1
  keyword_lines : Option Nat := none
  section_lines : Nat := 1
  separate_templated_tests : Bool := false
  deriving DecidableEq, Repr

/-- `keyword_lines if keyword_lines is not None else test_case_lines`. -/
def nl_keyword_lines (cfg : NLConfig) : Nat :=
  cfg.keyword_lines.getD cfg.test_case_lines

/-- `isinstance(child, EmptyLine)`. -/
def is_empty_line : NLItem → Bool
  | .emptyLine => true
  | _ => false

/-- `trim_trailing_empty_lines`: pop trailing `EmptyLine` statements. -/
def trim_trailing_empty_lines (body : List NLItem) : List NLItem :=
  (body.reverse.dropWhile is_empty_line).reverse

/-- `trim_leading_empty_lines`: pop leading `EmptyLine` statements. -/
def trim_leading_empty_lines (body : List NLItem) : List NLItem :=
  body.dropWhile is_empty_line

/-- Both trims, in the order the visitors apply them. -/
def nl_trimmed (body : List NLItem) : List NLItem :=
  trim_trailing_empty_lines (trim_leading_empty_lines body)

mutual
/-- `TestTemplateFinder`: a `TestTemplate` node with a value marks the
document as templated (`generic_visit` recurses through all nodes). -/
def nl_item_templated : NLItem → Bool
  | .testTemplate v => v
  | .testCase b => nl_body_templated b
  | .keywordDef b => nl_body_templated b
  | _ => false

/-- Templated-ness of a body, item by item. -/
def nl_body_templated : List NLItem → Bool
  | [] => false
  | x :: xs => nl_item_templated x || nl_body_templated xs
end

/-- `NormalizeNewLines.is_templated`. -/
def nl_is_templated (secs : List NLSection) : Bool :=
  secs.any (fun s => nl_body_templated s.body)

/-- `visit_TestCase`: trim both ends; the last test gets nothing appended;
otherwise `test_case_lines` blank lines are appended unless the document is
templated. -/
def nl_visit_TestCase (cfg : NLConfig) (templated : Bool) (isLast : Bool)
    (body : List NLItem) : List NLItem :=
  let b := nl_trimmed body
  if isLast then b
  else if templated then b
  else b ++ List.replicate cfg.test_case_lines .emptyLine

/-- `visit_Keyword`: trim both ends; the last keyword gets nothing appended;
otherwise `keyword_lines` blank lines are appended. -/
def nl_visit_Keyword (cfg : NLConfig) (isLast : Bool)
    (body : List NLItem) : List NLItem :=
  let b := nl_trimmed body
  if isLast then b
  else b ++ List.replicate (nl_keyword_lines cfg) .emptyLine

/-- Index-aware map (the traversal needs each child's position to model the
`node is self.last_test` identity check). -/
def map_with_idx (f : Nat → α → β) : Nat → List α → List β
  | _, [] => []
  | i, x :: xs => f i x :: map_with_idx f (i + 1) xs

/-- Whether `node.body[-1]` is a test case (`self.last_test` pre-pass). -/
def nl_last_is_test (body : List NLItem) : Bool :=
  match body.getLast? with
  | some (.testCase _) => true
  | _ => false

/-- Whether `node.body[-1]` is a keyword (`self.last_keyword` pre-pass). -/
def nl_last_is_keyword (body : List NLItem) : Bool :=
  match body.getLast? with
  | some (.keywordDef _) => true
  | _ => false

/-- `visit_Section` (with the `visit_TestCaseSection` / `visit_KeywordSection`
pre-passes): capture whether the pre-trim last element is a test/keyword,
trim both ends, append one blank line to the last section of the document or
`section_lines` to any other, then let `generic_visit` rewrite the child
test/keyword blocks (the appended `EmptyLine` statements have no visitor). -/
def nl_visit_Section (cfg : NLConfig) (templated : Bool) (isLastSection : Bool)
    (sec : NLSection) : NLSection :=
  let lastIsTest := decide (sec.kind = .testCases) && nl_last_is_test sec.body
  let lastIsKw := decide (sec.kind = .keywords) && nl_last_is_keyword sec.body
  let t := nl_trimmed sec.body
  let n := if isLastSection then 1 else cfg.section_lines
  let core := map_with_idx (fun j it =>
    match it with
    | .testCase b =>
      .testCase (nl_visit_TestCase cfg templated
        (lastIsTest && decide (j + 1 = t.length)) b)
    | .keywordDef b =>
      .keywordDef (nl_visit_Keyword cfg
        (lastIsKw && decide (j + 1 = t.length)) b)
    | x => x) 0 t
  ⟨sec.kind, core ++ List.replicate n .emptyLine⟩

/-- `visit_File`: detect templating, capture the last section, visit every
section in order. -/
def normalize_new_lines (cfg : NLConfig) (secs : List NLSection) :
    List NLSection :=
  let templated := !cfg.separate_templated_tests && nl_is_templated secs
  map_with_idx (fun i s =>
    nl_visit_Section cfg templated (decide (i + 1 = secs.length)) s) 0 secs

/-- Number of trailing blank-line statements of a body. -/
def trailing_empty_count (body : List NLItem) : Nat :=
  (body.reverse.takeWhile is_empty_line).length

/-- Default NormalizeNewLines configuration (all counts 1,
`separate_templated_tests` off). -/
def cfgNL : NLConfig := {}

/-- Templated document used as counterexample: a settings-like section with
a non-empty `Test Template`, then a test-case section with two tests. -/
def secsT : List NLSection :=
  [⟨.plain, [.testTemplate true]⟩,
   ⟨.testCases, [.testCase [.plainStmt], .testCase [.plainStmt]]⟩]

/-- Document used as witness: a plain section with a statement and trailing
blank lines, then a test-case section with two tests (blank lines around
them), then a keyword section with two keywords. -/
def secsW : List NLSection :=
  [⟨.plain, [.plainStmt, .emptyLine, .emptyLine]⟩,
   ⟨.testCases, [.emptyLine, .testCase [.plainStmt, .emptyLine],
     .testCase [.emptyLine, .plainStmt]]⟩,
   ⟨.keywords, [.keywordDef [.plainStmt], .keywordDef [.plainStmt]]⟩]

/-! ## AssignmentNormalizer (`transformers.py` lines 242-374)

The rule only reads variable-definition tokens in variable sections and the
assignment tokens of keyword calls; the document is modelled as the ordered
list of those items (traversal order), everything else being `plainA`. -/

/-- An assignment site: a `Variable` definition's VARIABLE token value, a
keyword call's list of assignment token values, or any other node. -/
inductive AItem where
  | varDef (value : String)
  | kwCall (assign : List String)
  | plainA
  deriving DecidableEq, Repr

/-- `AssignmentTypeDetector.get_assignment_sign`:
`token_value[token_value.find('\x7d') + 1:]` — the substring after the first
closing brace, or the whole value when there is none (`find` returns -1). -/
def get_assignment_sign (token_value : String) : String :=
  if token_value.data.contains '\x7d' then
    String.mk (token_value.data.drop (token_value.data.indexOf '\x7d' + 1))
  else token_value

/-- `collections.Counter` update: increment an existing key or append a new
key with count 1 (CPython dicts preserve first-insertion order). -/
def counter_add (c : List (String × Nat)) (k : String) :
    List (String × Nat) :=
  if c.any (fun p => decide (p.1 = k)) then
    c.map (fun p => if p.1 = k then (p.1, p.2 + 1) else p)
  else c ++ [(k, 1)]

/-- The assignment signs the detector tallies, in traversal order: one per
variable definition, one per keyword call with a non-empty assign list (only
`assign[-1]` is considered). -/
def an_signs (doc : List AItem) : List String :=
  doc.flatMap (fun it =>
    match it with
    | .varDef v => [get_assignment_sign v]
    | .kwCall assign =>
      match assign.getLast? with
      | some a => [get_assignment_sign a]
      | none => []
    | .plainA => [])

/-- `AssignmentTypeDetector.sign_counter` after the read-only scan. -/
def an_counter (doc : List AItem) : List (String × Nat) :=
  (an_signs doc).foldl counter_add []

/-- `Counter.most_common(1)[0][0]` via `heapq.nlargest`: the first entry
reaching the maximal count (later entries replace the best only when
strictly greater). -/
def most_common_1 (c : List (String × Nat)) : Option String :=
  (c.foldl (fun best p =>
    match best with
    | none => some p
    | some q => if q.2 < p.2 then some p else some q) none).map Prod.fst

/-- `AssignmentTypeDetector.visit_File`: `most_common` is produced only when
at least two distinct signs were observed. -/
def an_detect (doc : List AItem) : Option String :=
  if 2 ≤ (an_counter doc).length then most_common_1 (an_counter doc)
  else none

/-- Python `str.isspace` for the characters `\s` can match in this context. -/
def py_isspace (ch : Char) : Bool :=
  ch == ' ' || ch == '\t' || ch == '\n' || ch == '\r' ||
    ch == '\x0b' || ch == '\x0c'

/-- `re.sub(r'\s?=$', '', value)`: drop one trailing `=`, plus at most one
whitespace character directly before it. -/
def remove_equal_sign_sub (v : String) : String :=
  match v.data.getLast? with
  | some '=' =>
    let w := v.data.dropLast
    match w.getLast? with
    | some ch => if py_isspace ch then String.mk w.dropLast else String.mk w
    | none => String.mk w
  | _ => v

/-- Python truthiness of an optional string (`None` and `''` are falsy). -/
def truthyS : Option String → Bool
  | none => false
  | some s => !s.data.isEmpty

/-- `AssignmentNormalizer.normalize_equal_sign`: strip the existing marker,
then append the configured sign if truthy, else the autodetected file sign
if truthy. -/
def normalize_equal_sign (eqT fileT : Option String) (v : String) : String :=
  let v2 := remove_equal_sign_sub v
  if truthyS eqT then v2 ++ eqT.getD ""
  else if truthyS fileT then v2 ++ fileT.getD ""
  else v2

/-- One item under `generic_visit`: variable tokens are normalized, a
keyword call's last assignment token is normalized (`assign_tokens[-1]`),
empty assign lists and other items are untouched. -/
def an_norm_item (eqT fileT : Option String) : AItem → AItem
  | .varDef v => .varDef (normalize_equal_sign eqT fileT v)
  | .kwCall assign =>
    match assign.getLast? with
    | none => .kwCall assign
    | some a => .kwCall (assign.dropLast ++ [normalize_equal_sign eqT fileT a])
  | .plainA => .plainA

/-- `click.BadOptionUsage`, as raised by `parse_equal_sign_type`. -/
structure BadOptionUsage where
  option_name : String
  message : String
  deriving DecidableEq, Repr

/-- `AssignmentNormalizer.parse_equal_sign_type`: the closed choice of
`equal_sign_type` values; anything else raises `click.BadOptionUsage` whose
message names the offending value and lists the accepted ones. -/
def parse_equal_sign_type (value : String) :
    Except BadOptionUsage (Option String) :=
  if value = "remove" then .ok (some "")
  else if value = "equal_sign" then .ok (some "=")
  else if value = "space_and_equal_sign" then .ok (some " =")
  else if value = "autodetect" then .ok none
  else .error ⟨"transform",
    "Invalid configurable value: " ++ value ++
    " for equal_sign_type for AssignmentNormalizer transformer." ++
    " Possible values:\n    remove\n    equal_sign\n    space_and_equal_sign"⟩

/-- `AssignmentNormalizer.visit_File` with the instance state made explicit:
takes the configured sign (`equal_sign_type`, `none` = autodetect) and the
current `file_equal_sign_type` state, returns the rewritten document and the
state left behind for the next document.  In autodetect mode a uniform file
is returned untouched (early `return node`, state untouched); otherwise
every site is normalized and the state is reset to `None`. -/
def an_process_file (eqT : Option String) (fileSign : Option String)
    (doc : List AItem) : List AItem × Option String :=
  match eqT with
  | none =>
    match an_detect doc with
    | none => (doc, fileSign)
    | some s => (doc.map (an_norm_item none (some s)), none)
  | some t => (doc.map (an_norm_item (some t) fileSign), none)

/-- The per-item normal form the claim describes: every marker-bearing token
ends with the chosen style `s` after its previous marker is stripped. -/
def an_spec_item (s : String) : AItem → AItem
  | .varDef v => .varDef (remove_equal_sign_sub v ++ s)
  | .kwCall assign =>
    match assign.getLast? with
    | none => .kwCall assign
    | some a => .kwCall (assign.dropLast ++ [remove_equal_sign_sub a ++ s])
  | .plainA => .plainA

/-- Document with sign tallies `'=': 3, ' =': 2, '': 1` (the claim's
example). -/
def docC6 : List AItem :=
  [.varDef "$\x7ba\x7d=", .varDef "$\x7bb\x7d=", .kwCall ["$\x7bc\x7d="],
   .varDef "$\x7bd\x7d =", .varDef "$\x7be\x7d =", .varDef "$\x7bf\x7d"]

/-- Document in which `'='` and `' ='` are tied with two occurrences each;
`'='` occurs first. -/
def docC10 : List AItem :=
  [.varDef "$\x7ba\x7d=", .varDef "$\x7bb\x7d =", .varDef "$\x7bc\x7d=",
   .varDef "$\x7bd\x7d ="]

/-! ## RemoveEmptySettings (`transformers/RemoveEmptySettings.py`) -/

/-- Modelled from the spec (§6, §7): `robotidy.exceptions.
InvalidParameterValueError` is not part of the sources; the spec says the
configuration error names the rule, the parameter, the offending value and
the accepted values, which this structure carries verbatim as the class's
constructor arguments. -/
structure InvalidParameterValueErr where
  transformer : String
  param : String
  value : String
  msg : String
  deriving DecidableEq, Repr

/-- Statement class for the `FindSuiteSettings` visitor dispatch (the five
suite-level overridable settings; everything else is `otherC`). -/
inductive SuiteCls where
  | testSetupC
  | testTeardownC
  | testTemplateC
  | testTimeoutC
  | defaultTagsC
  | otherC
  deriving DecidableEq, Repr

/-- A statement as RemoveEmptySettings sees it: visitor class, `node.type`,
tokens and the source span consulted by the selection guard. -/
structure RStmt where
  cls : SuiteCls := .otherC
  typ : TokType
  tokens : List Tok
  lineno : Nat := 1
  end_lineno : Nat := 1
  deriving DecidableEq, Repr

/-- `robot` library: token types that are not data tokens
(`Statement.data_tokens` filters them out). -/
def NON_DATA_TOKEN_TYPES : List TokType :=
  [.SEPARATOR, .COMMENT, .CONTINUATION, .EOL, .EOS]

/-- `node.data_tokens`. -/
def data_tokens (toks : List Tok) : List Tok :=
  toks.filter (fun t => t.typ ∉ NON_DATA_TOKEN_TYPES)

/-- `Token.SETTING_TOKENS` (the setting token types this model carries). -/
def SETTING_TOKEN_TYPES : List TokType :=
  [.SETUP, .TEARDOWN, .TEMPLATE, .TIMEOUT, .TAGS,
   .TEST_SETUP, .TEST_TEARDOWN, .TEST_TEMPLATE, .TEST_TIMEOUT, .DEFAULT_TAGS,
   .DOCUMENTATION, .LIBRARY]

/-- `self.child_types`: the local settings that may overwrite suite ones. -/
def res_child_types : List TokType :=
  [.SETUP, .TEARDOWN, .TIMEOUT, .TEMPLATE, .TAGS]

/-- Which child token type a suite-level setting class overwrites
(`FindSuiteSettings.visit_TestSetup` adds `Token.SETUP`, and so on). -/
def suite_cls_token : SuiteCls → Option TokType
  | .testSetupC => some .SETUP
  | .testTeardownC => some .TEARDOWN
  | .testTemplateC => some .TEMPLATE
  | .testTimeoutC => some .TIMEOUT
  | .defaultTagsC => some .TAGS
  | .otherC => none

/-- `RemoveEmptySettings.find_overwritten_settings` /
`FindSuiteSettings`: collect the overwritable kinds whose suite-level
setting is non-empty (`len(data_tokens) != 1`).  The Python set is modelled
as a list; only membership is ever consulted.  `find_ow_step` is the
per-statement visitor dispatch (`visit_TestSetup` and friends call
`check_setting`). -/
def find_ow_step (acc : List TokType) (st : RStmt) : List TokType :=
  match suite_cls_token st.cls with
  | some k => if (data_tokens st.tokens).length ≠ 1 then k :: acc else acc
  | none => acc

/-- The fold over the whole document. -/
def find_overwritten_settings (file : List RStmt) : List TokType :=
  file.foldl find_ow_step []

/-- `RemoveEmptySettings.visit_Statement` (decorated with
`check_start_end_line`): non-settings and non-empty settings pass through;
an empty setting is deleted unless its kind is overwritable, the mode
respects overrides and the kind is actively overwritten, in which case
`more_explicit` rewrites it in place to `[SEP indent][name][SEP][NONE][EOL]`. -/
def res_visit_Statement (fcfg : FormattingConfig) (work_mode : String)
    (more_explicit : Bool) (overwritten : List TokType) (node : RStmt) :
    Option RStmt :=
  if node_outside_selection_lines node.lineno node.end_lineno fcfg then
    some node
  else if node.typ ∉ SETTING_TOKEN_TYPES ∨
      (data_tokens node.tokens).length ≠ 1 then some node
  else if node.typ ∉ res_child_types ∨ work_mode = "always" ∨
      node.typ ∉ overwritten then none
  else if more_explicit then
    let indent := match node.tokens.head? with
      | some t => if t.typ = .SEPARATOR then t.value else ""
      | none => ""
    let setting_token := (data_tokens node.tokens).headD (Tok.mk .EOL "")
    some { node with tokens := [Tok.mk .SEPARATOR indent, setting_token,
      Tok.mk .SEPARATOR fcfg.separator, Tok.mk .ARGUMENT "NONE",
      Tok.mk .EOL "\n"] }
  else some node

/-- `RemoveEmptySettings.visit_File` with the instance state made explicit:
compute the overwritten set (in `overwrite_ok` mode; otherwise keep the
incoming state), run `generic_visit` (statements returning `None` are
removed from the tree), then reset the state to the empty set. -/
def res_process_file (fcfg : FormattingConfig) (work_mode : String)
    (more_explicit : Bool) (overwritten_state : List TokType)
    (file : List RStmt) : List RStmt × List TokType :=
  let ow := if work_mode = "overwrite_ok" then find_overwritten_settings file
            else overwritten_state
  (file.filterMap (res_visit_Statement fcfg work_mode more_explicit ow), [])

/-- `RemoveEmptySettings.__init__`: `work_mode` outside
`('overwrite_ok', 'always')` raises `InvalidParameterValueError` naming the
transformer, the parameter, the value and the accepted values. -/
def RemoveEmptySettings_init (work_mode : String) (more_explicit : Bool) :
    Except InvalidParameterValueErr (String × Bool) :=
  if work_mode ∉ (["overwrite_ok", "always"] : List String) then
    .error ⟨"RemoveEmptySettings", "work_mode", work_mode,
      "Possible values:\n    overwrite_ok\n    always"⟩
  else .ok (work_mode, more_explicit)

/-! ## DiscardEmptySections (`transformers/DiscardEmptySections.py`, and the
equal-logic copy in `transformers.py` lines 64-101) -/

/-- What the emptiness check distinguishes: blank lines, comments, anything
else. -/
inductive DESChild where
  | emptyLineD
  | commentD
  | dataStmtD
  deriving DecidableEq, Repr

/-- A section as DiscardEmptySections sees it. -/
structure DESSection where
  isCommentSection : Bool
  body : List DESChild
  lineno : Nat := 1
  end_lineno : Nat := 1
  deriving DecidableEq, Repr

/-- `DiscardEmptySections.visit_Section` (decorated with
`check_start_end_line`): build `anything_but` — only `EmptyLine` when
`allow_only_comments` is set or the section is a `CommentSection`, otherwise
`(Comment, EmptyLine)` — and delete the section (return `None`) when every
child is an instance of it. -/
def des_visit_Section (allow_only_comments : Bool) (fcfg : FormattingConfig)
    (node : DESSection) : Option DESSection :=
  if node_outside_selection_lines node.lineno node.end_lineno fcfg then
    some node
  else if node.body.all (fun child =>
      if allow_only_comments || node.isCommentSection then
        decide (child = DESChild.emptyLineD)
      else
        decide (child = DESChild.emptyLineD) ||
          decide (child = DESChild.commentD)) then none
  else some node

/-! ## AlignVariablesSection (`transformers/AlignVariablesSection.py`)

The classification step of `visit_VariableSection` (`tokens_by_lines`,
`left_align`, `should_parse` — helpers living in `robotidy.utils`, outside
the sources) is taken as input: a child is either a pass-through or an
alignable statement already reshaped into one row of token values per
physical line, each line ending with its EOL token value. -/

/-- Configuration after `__init__` (`self.up_to_column = up_to_column - 1`;
`min_width` keeps Python truthiness: 0 and None both disable it). -/
structure AVConfig where
  up_to_column : Int
  min_width : Nat
  skip_types : List String
  deriving DecidableEq, Repr

/-- Modelled from the spec (§4.8): `robotidy.utils.round_to_four` is not
part of the sources; each maximum is rounded up to the next multiple of
four. -/
def round_to_four (n : Nat) : Nat :=
  if n % 4 = 0 then n else n + 4 - n % 4

/-- `enumerate` with a starting index. -/
def enum_from (k : Nat) : List α → List (Nat × α)
  | [] => []
  | x :: xs => (k, x) :: enum_from (k + 1) xs

/-- The slice bound of `create_look_up`'s inner loop
(`up_to = self.up_to_column if self.up_to_column != -1 else len(line)`). -/
def av_lookup_line_up_to (cfg : AVConfig) (line : List String) : Nat :=
  if cfg.up_to_column ≠ -1 then cfg.up_to_column.toNat else line.length

/-- The `defaultdict(int)` built by `create_look_up` before rounding:
`look_up[index] = max(look_up[index], len(token.value))` over every line's
slice `line[:up_to]`. -/
def create_look_up_raw (cfg : AVConfig)
    (stmts : List (List (List String))) : Nat → Nat :=
  stmts.foldl (fun look st =>
    st.foldl (fun look line =>
      (enum_from 0 (line.take (av_lookup_line_up_to cfg line))).foldl
        (fun look p =>
          fun i => if i = p.1 then max (look i) p.2.length else look i)
        look) look)
    (fun _ => 0)

/-- `create_look_up`: the raw widths rounded up to multiples of four
(missing keys behave as 0; every index the aligner reads is populated). -/
def create_look_up (cfg : AVConfig) (stmts : List (List (List String)))
    (i : Nat) : Nat :=
  round_to_four (create_look_up_raw cfg stmts i)

/-- Python `str.strip()`. -/
def py_strip (s : String) : String :=
  String.mk (((s.data.dropWhile py_isspace).reverse.dropWhile
    py_isspace).reverse)

/-- `value.lstrip(" \t")`. -/
def lstrip_sp_tab (s : String) : String :=
  String.mk (s.data.dropWhile (fun c => c == ' ' || c == '\t'))

/-- Modelled from the spec (§4.8.1): `robotidy.utils.is_blank_multiline` is
not part of the sources; a line is a blank continuation when every token is
whitespace-only. -/
def is_blank_multiline (line : List String) : Bool :=
  line.all (fun v => (py_strip v).data.isEmpty)

/-- `AlignVariablesSection.calc_separator`. -/
def calc_separator (cfg : AVConfig) (fcfg : FormattingConfig) (index : Nat)
    (up_to : Int) (tokval : String) (look : Nat → Nat) : String :=
  if (index : Int) < up_to then
    if cfg.min_width ≠ 0 then
      spaces (max (cfg.min_width - tokval.length) fcfg.space_count)
    else
      spaces (((look index : Int) - (tokval.length : Int) + 4).toNat)
  else spaces fcfg.space_count

/-- One line of `align_rows`: blank continuation lines only get their EOL
normalized; other lines interleave each token of `line[:-2]` with its
computed separator (`up_to` falling back to `len(line) - 2` when
unbounded), strip the last value token and keep the EOL. -/
def av_align_line (cfg : AVConfig) (fcfg : FormattingConfig)
    (look : Nat → Nat) (line : List String) : List String :=
  if is_blank_multiline line then
    match line.getLast? with
    | some last => line.dropLast ++ [lstrip_sp_tab last]
    | none => []
  else
    let up_to : Int := if cfg.up_to_column ≠ -1 then cfg.up_to_column
                       else (line.length : Int) - 2
    ((enum_from 0 (line.dropLast.dropLast)).flatMap
      (fun p => [p.2, calc_separator cfg fcfg p.1 up_to p.2 look])) ++
    (match line.dropLast.getLast? with
     | some lt => [py_strip lt]
     | none => []) ++
    (match line.getLast? with
     | some e => [e]
     | none => [])

/-- `align_rows` on one alignable statement: all its lines, concatenated
back into one token stream (`Statement.from_tokens`). -/
def av_align_statement (cfg : AVConfig) (fcfg : FormattingConfig)
    (look : Nat → Nat) (lines : List (List String)) : List String :=
  lines.flatMap (av_align_line cfg fcfg look)

/-- A classified child of the variable section. -/
inductive AVChild where
  | passthrough
  | alignable (lines : List (List String))
  deriving DecidableEq, Repr

/-- A child after `align_rows`. -/
inductive AVOut where
  | passOut
  | alignedOut (tokens : List String)
  deriving DecidableEq, Repr

/-- `nodes_to_be_aligned`: the alignable statements, in order. -/
def av_alignable_lines (children : List AVChild) : List (List (List String)) :=
  children.filterMap (fun c =>
    match c with
    | .alignable lines => some lines
    | .passthrough => none)

/-- `visit_VariableSection` after classification: `none` models the early
`return node` when nothing is alignable; otherwise the lookup is built over
the alignable rows and every alignable statement is re-emitted. -/
def av_visit_VariableSection (cfg : AVConfig) (fcfg : FormattingConfig)
    (children : List AVChild) : Option (List AVOut) :=
  let nodes := av_alignable_lines children
  if nodes.isEmpty then none
  else
    let look := create_look_up cfg nodes
    some (children.map (fun c =>
      match c with
      | .passthrough => .passOut
      | .alignable lines =>
        .alignedOut (av_align_statement cfg fcfg look lines)))

/-- `str.split(',')` (total, non-empty result, preserves empty segments). -/
def split_chars_on_comma : List Char → List (List Char)
  | [] => [[]]
  | c :: cs =>
    let r := split_chars_on_comma cs
    if c = ',' then [] :: r
    else
      match r with
      | x :: xs => (c :: x) :: xs
      | [] => [[c]]

/-- `skip_types.split(",")`. -/
def split_on_comma (s : String) : List String :=
  (split_chars_on_comma s.data).map String.mk

/-- `AlignVariablesSection.parse_skip_types` on the split entries: map each
entry through `allow_types` (`dict → &`, `list → @`, `scalar → $`), raising
`InvalidParameterValueError` at the first unknown entry. -/
def parse_skip_types_go : List String →
    Except InvalidParameterValueErr (List String)
  | [] => .ok []
  | st :: rest =>
    if st = "dict" then (parse_skip_types_go rest).map (fun r => "&" :: r)
    else if st = "list" then (parse_skip_types_go rest).map (fun r => "@" :: r)
    else if st = "scalar" then
      (parse_skip_types_go rest).map (fun r => "$" :: r)
    else .error ⟨"AlignVariablesSection", "skip_type", st,
      "Variable types should be provided in comma separated list:\nskip_type=dict,list,scalar"⟩

/-- `AlignVariablesSection.parse_skip_types`: an empty parameter yields the
empty set. -/
def parse_skip_types (skip_types : String) :
    Except InvalidParameterValueErr (List String) :=
  if skip_types = "" then .ok []
  else parse_skip_types_go (split_on_comma skip_types)

/-- `AlignVariablesSection.__init__`. -/
def AlignVariablesSection_init (up_to_column : Nat) (skip_types : String)
    (min_width : Nat) : Except InvalidParameterValueErr AVConfig :=
  (parse_skip_types skip_types).map
    (fun sk => ⟨(up_to_column : Int) - 1, min_width, sk⟩)

/-- The per-column contributions the lookup scans: the lengths of the
tokens standing at column `i` within each line's lookup slice. -/
def av_col_entries (cfg : AVConfig) (stmts : List (List (List String)))
    (i : Nat) : List Nat :=
  stmts.flatMap (fun st => st.filterMap (fun line =>
    if i < av_lookup_line_up_to cfg line then
      (line.get? i).map String.length
    else none))

/-- The per-column width as the CLAIM's words describe the unbounded case
("all but the last two columns when unbounded"), for comparison with the
code's `create_look_up`. -/
def claim_all_but_last_two_look_up (stmts : List (List (List String)))
    (i : Nat) : Nat :=
  round_to_four ((stmts.flatMap (fun st => st.filterMap (fun line =>
    if i < line.length - 2 then (line.get? i).map String.length
    else none))).foldl max 0)

/-- The per-token update of `create_look_up`'s inner loop, named so the
fold can be reasoned about (identical term to the inline lambda). -/
def av_tok_step (look : Nat → Nat) (p : Nat × String) : Nat → Nat :=
  fun i => if i = p.1 then max (look i) p.2.length else look i

/-- One line of `create_look_up`'s scan. -/
def av_line_step (cfg : AVConfig) (look : Nat → Nat) (line : List String) :
    Nat → Nat :=
  (enum_from 0 (line.take (av_lookup_line_up_to cfg line))).foldl
    av_tok_step look

/-- One statement of `create_look_up`'s scan. -/
def av_stmt_step (cfg : AVConfig) (look : Nat → Nat)
    (st : List (List String)) : Nat → Nat :=
  st.foldl (av_line_step cfg) look

/-- The column-`i` contributions of one statement's lines. -/
def av_line_entries (cfg : AVConfig) (i : Nat) (st : List (List String)) :
    List Nat :=
  st.filterMap (fun line =>
    if i < av_lookup_line_up_to cfg line then
      (line.get? i).map String.length
    else none)

/-- Unbounded configuration (`up_to_column=0` gives internal -1). -/
def cfgU : AVConfig := ⟨-1, 0, []⟩

/-- Default configuration (`up_to_column=2` gives internal 1). -/
def cfgB : AVConfig := ⟨1, 0, []⟩

/-- Two single-line statements for the unbounded counterexample: the first
line's middle token is long and sits in its last-two slice, the second
line's column 1 is aligned. -/
def stmtsU : List (List (List String)) :=
  [[["vvvv", "aaaaaaaaaa", "\n"]], [["wwww", "x", "y", "\n"]]]

/-- The claim's own bounded instance: column-0 token lengths 4 and 14. -/
def stmtsB : List (List (List String)) :=
  [[["dddd", "1", "\n"]], [["dddddddddddddd", "2", "\n"]]]

/-- Suite used in the C5 witness: a non-empty `Test Timeout` at suite
level. -/
def resFileW : List RStmt :=
  [⟨.testTimeoutC, .TEST_TIMEOUT, [Tok.mk .TEST_TIMEOUT "Test Timeout",
    Tok.mk .SEPARATOR "    ", Tok.mk .ARGUMENT "1 min",
    Tok.mk .EOL "\n"], 1, 1⟩,
   ⟨.otherC, .TIMEOUT, [Tok.mk .SEPARATOR "    ",
    Tok.mk .TIMEOUT "[Timeout]", Tok.mk .EOL "\n"], 2, 2⟩,
   ⟨.otherC, .DOCUMENTATION, [Tok.mk .DOCUMENTATION "Documentation",
    Tok.mk .EOL "\n"], 3, 3⟩]

/-- The indentation `visit_Statement` preserves: the value of `tokens[0]`
when it is a separator, else the empty string. -/
def res_indent (node : RStmt) : String :=
  match node.tokens.head? with
  | some t => if t.typ = .SEPARATOR then t.value else ""
  | none => ""

/-! ### Lemmas about `split_args_on_delimeters` -/

theorem split_args_go_flatten (delims : List String) :
    ∀ (ts acc : List Tok), (split_args_go delims acc ts).flatten = acc.reverse ++ ts := by
  intro ts
  induction ts with
  | nil => intro acc; simp [split_args_go]
  | cons t ts ih =>
    intro acc
    by_cases h : t.value ∈ delims
    · simp [split_args_go, h, ih]
    · simp [split_args_go, h, ih]

theorem split_args_flatten (args : List Tok) (delims : List String) :
    (split_args_on_delimeters args delims).flatten = args := by
  simp [split_args_on_delimeters, split_args_go_flatten]

theorem split_args_go_ne_nil (delims : List String) :
    ∀ (ts acc : List Tok), split_args_go delims acc ts ≠ [] := by
  intro ts
  induction ts with
  | nil => intro acc; simp [split_args_go]
  | cons t ts ih =>
    intro acc
    by_cases h : t.value ∈ delims
    · simp [split_args_go, h]
    · simp only [split_args_go, if_neg h]; exact ih _

theorem split_args_ne_nil (args : List Tok) (delims : List String) :
    split_args_on_delimeters args delims ≠ [] :=
  split_args_go_ne_nil delims args []

theorem split_args_go_length (delims : List String) :
    ∀ (ts acc : List Tok),
      (split_args_go delims acc ts).length =
        1 + ts.countP (fun t => decide (t.value ∈ delims)) := by
  intro ts
  induction ts with
  | nil => intro acc; simp [split_args_go]
  | cons t ts ih =>
    intro acc
    by_cases h : t.value ∈ delims
    · simp [split_args_go, h, ih, List.countP_cons]; omega
    · simp [split_args_go, h, ih, List.countP_cons]

theorem split_args_go_countP_head (delims : List String) (v : String)
    (hv : v ∈ delims) :
    ∀ (ts acc : List Tok),
      (split_args_go delims acc ts).countP (seg_head_is v) =
        (if seg_head_is v acc.reverse then 1 else 0) +
          ts.countP (fun t => decide (t.value = v)) := by
  intro ts
  induction ts with
  | nil =>
    intro acc
    simp only [split_args_go, List.countP_cons, List.countP_nil]
    by_cases h : seg_head_is v acc.reverse <;> simp [h]
  | cons t ts ih =>
    intro acc
    by_cases h : t.value ∈ delims
    · have h1 : seg_head_is v ([t].reverse) = decide (t.value = v) := by
        simp [seg_head_is]
      simp only [split_args_go, if_pos h, List.countP_cons, ih, h1, List.countP_cons]
      by_cases h2 : seg_head_is v acc.reverse <;>
        by_cases h3 : t.value = v <;> simp [h2, h3] <;> omega
    · have hne : t.value ≠ v := fun he => h (he ▸ hv)
      have hh : seg_head_is v ((t :: acc).reverse) = seg_head_is v acc.reverse := by
        cases acc with
        | nil => simp [seg_head_is, hne]
        | cons a as =>
          obtain ⟨x, xs, hx⟩ := List.exists_cons_of_ne_nil
            (l := (a :: as).reverse) (by simp)
          simp [seg_head_is, List.reverse_cons, hx]
      simp only [split_args_go, if_neg h, ih, hh, List.countP_cons, hne]
      simp

/-! ### Generic helper lemmas -/

theorem countP_add_of_disjoint {α : Type} (p q : α → Bool) :
    ∀ l : List α, (∀ x ∈ l, ¬(p x = true ∧ q x = true)) →
      l.countP (fun x => p x || q x) = l.countP p + l.countP q := by
  intro l
  induction l with
  | nil => intro; simp
  | cons x xs ih =>
    intro h
    have hx := h x (by simp)
    simp only [List.countP_cons]
    rw [ih (fun y hy => h y (by simp [hy]))]
    by_cases hp : p x <;> by_cases hq : q x <;> simp [hp, hq] at hx ⊢ <;> omega

theorem hkind_count_partition :
    ∀ l : List HKind,
      l.countP (fun k => decide (k = .condIf)) +
      l.countP (fun k => decide (k = .condElseIf)) +
      l.countP (fun k => decide (k = .plainElse)) = l.length := by
  intro l
  induction l with
  | nil => simp
  | cons k ks ih => cases k <;> simp [List.countP_cons] <;> omega

theorem length_le_length_flatten {α : Type} {l : List (List α)} {x : List α}
    (hx : x ∈ l) : x.length ≤ l.flatten.length := by
  induction l with
  | nil => cases hx
  | cons y ys ih =>
    rcases List.mem_cons.mp hx with h | h
    · subst h
      simp only [List.flatten_cons, List.length_append]
      omega
    · have := ih h
      simp only [List.flatten_cons, List.length_append]
      omega

theorem eq_replicate_none {γ : Type} {l : List (Option γ)}
    (h : ∀ x ∈ l, x = none) : l = List.replicate l.length none := by
  induction l with
  | nil => rfl
  | cons x xs ih =>
    have hx := h x (by simp)
    subst hx
    simp only [List.length_cons, List.replicate_succ, List.cons.injEq, true_and]
    exact ih (fun y hy => h y (by simp [hy]))

theorem traverse_opt_isSome {α β : Type} {f : α → Option β} :
    ∀ {l : List α}, (∀ x ∈ l, (f x).isSome) → (traverse_opt f l).isSome := by
  intro l
  induction l with
  | nil => intro _; simp [traverse_opt]
  | cons x xs ih =>
    intro h
    obtain ⟨y, hy⟩ := Option.isSome_iff_exists.mp (h x (by simp))
    obtain ⟨ys, hys⟩ := Option.isSome_iff_exists.mp
      (ih (fun z hz => h z (by simp [hz])))
    simp [traverse_opt, hy, hys]

/-! ### Lemmas about `create_keywords` and the branch builders -/

theorem branch_min_arity_length {b : List Tok} (h : branch_min_arity b = true) :
    2 ≤ b.length := by
  match b with
  | [] => simp [branch_min_arity] at h
  | t :: bs =>
    simp only [branch_min_arity] at h
    split_ifs at h with h1 h2 <;> simp at h <;> simp <;> omega

theorem create_keywords_isSome (cfg : FormattingConfig) (assign : List Tok)
    (ind : String) {args : List Tok} (h : create_keywords_safe args = true) :
    (create_keywords cfg args assign ind).isSome := by
  match args with
  | [] => simp [create_keywords_safe] at h
  | a :: rest =>
    simp only [create_keywords_safe] at h
    simp only [create_keywords]
    by_cases hr : normalize_name a.value = "runkeywords"
    · rw [if_pos hr] at h ⊢
      have hts : (traverse_opt
          (fun kw => args_to_keyword cfg (kw.drop 1) assign ind)
          (split_args_on_delimeters (a :: rest) ["AND"])).isSome := by
        apply traverse_opt_isSome
        intro kw hkw
        have h2 : 2 ≤ kw.length := by
          have := (List.all_eq_true.mp h) kw hkw
          simpa using this
        match kw, h2 with
        | k1 :: k2 :: ks, _ => simp [args_to_keyword]
      obtain ⟨ys, hys⟩ := Option.isSome_iff_exists.mp hts
      simp only [List.drop_one] at hys
      simp [hys]
    · rw [if_neg hr]
      simp [args_to_keyword]

theorem chain_kinds_set_end (c : IfChain) (e : List Tok) :
    chain_kinds (rki_set_end c e) = chain_kinds c := by
  cases c with
  | node h b o en => cases o <;> simp [rki_set_end, chain_kinds]

theorem chain_ends_set_end (c : IfChain) (e : List Tok) :
    chain_ends (rki_set_end c e) = some e :: (chain_ends c).tail := by
  cases c with
  | node h b o en => cases o <;> simp [rki_set_end, chain_ends]

theorem chain_ends_length_eq :
    ∀ c : IfChain, (chain_ends c).length = (chain_kinds c).length
  | .node h b o e => by
    cases o with
    | none => simp [chain_ends, chain_kinds]
    | some c => simp [chain_ends, chain_kinds, chain_ends_length_eq c]

/-- A branch that is non-empty, satisfies its minimum arity and has
well-formed keyword arguments yields a built block whose header kind is the
branch's kind. -/
theorem rki_step_ok (cfg : FormattingConfig) (sep : Tok) (assign : List Tok)
    {b : List Tok} (hb : branch_min_arity b = true)
    (hsafe : create_keywords_safe (branch_args b) = true) :
    ∃ hd body, rki_step cfg sep assign b = .stepBlock hd body ∧
      header_kind hd = branch_kind b := by
  cases b with
  | nil => simp [branch_min_arity] at hb
  | cons t bs =>
    simp only [rki_step]
    by_cases hE : t.value = "ELSE"
    · rw [if_pos hE]
      have hbs : bs ≠ [] := by
        simp only [branch_min_arity, if_pos hE] at hb
        intro h
        subst h
        simp at hb
      have hargs : branch_args (t :: bs) = bs := by
        simp [branch_args, hE]
      rw [hargs] at hsafe
      obtain ⟨body, hbody⟩ := Option.isSome_iff_exists.mp
        (create_keywords_isSome cfg assign sep.value hsafe)
      match bs, hbs with
      | b1 :: bs1, _ =>
        refine ⟨.elseH [sep, Tok.mk .ELSETOK "ELSE", Tok.mk .EOL "\n"],
          body, ?_, ?_⟩
        · simp [rki_step_else, hbody]
        · simp [header_kind, branch_kind, hE]
    · by_cases hEI : t.value = "ELSE IF"
      · rw [if_neg hE, if_pos hEI]
        have h2 : 2 ≤ bs.length := by
          simp only [branch_min_arity, if_neg hE, if_pos hEI] at hb
          simpa using hb
        match bs, h2 with
        | b1 :: b2 :: bs2, _ =>
          have hargs : branch_args (t :: b1 :: b2 :: bs2) = b2 :: bs2 := by
            simp [branch_args, hE, hEI]
          rw [hargs] at hsafe
          obtain ⟨body, hbody⟩ := Option.isSome_iff_exists.mp
            (create_keywords_isSome cfg assign sep.value hsafe)
          refine ⟨.elseifH [sep, Tok.mk .ELSEIFTOK "ELSE IF",
            Tok.mk .SEPARATOR (spaces cfg.space_count), b1,
            Tok.mk .EOL "\n"], body, ?_, ?_⟩
          · simp [rki_step_elseif, hbody]
          · simp [header_kind, branch_kind, hE, hEI]
      · rw [if_neg hE, if_neg hEI]
        have hbs : bs ≠ [] := by
          simp only [branch_min_arity, if_neg hE, if_neg hEI] at hb
          intro h
          subst h
          simp at hb
        have hargs : branch_args (t :: bs) = bs := by
          simp [branch_args, hE, hEI]
        rw [hargs] at hsafe
        obtain ⟨body, hbody⟩ := Option.isSome_iff_exists.mp
          (create_keywords_isSome cfg assign sep.value hsafe)
        match bs, hbs with
        | b1 :: bs1, _ =>
          refine ⟨.ifH [sep, Tok.mk .IFTOK "IF",
            Tok.mk .SEPARATOR (spaces cfg.space_count), t,
            Tok.mk .EOL "\n"], body, ?_, ?_⟩
          · simp [rki_step_if, hbody]
          · simp [header_kind, branch_kind, hE, hEI]

/-- A non-empty branch violating its minimum arity makes the loop return
the original node (`stepUnchanged`). -/
theorem rki_step_unchanged (cfg : FormattingConfig) (sep : Tok)
    (assign : List Tok) {b : List Tok} (hne : b ≠ [])
    (hb : branch_min_arity b = false) :
    rki_step cfg sep assign b = .stepUnchanged := by
  cases b with
  | nil => exact absurd rfl hne
  | cons t bs =>
    simp only [rki_step]
    by_cases hE : t.value = "ELSE"
    · rw [if_pos hE]
      simp only [branch_min_arity, if_pos hE] at hb
      have hbs : bs = [] := by
        cases bs with
        | nil => rfl
        | cons x xs => simp at hb
      subst hbs
      simp [rki_step_else]
    · by_cases hEI : t.value = "ELSE IF"
      · rw [if_neg hE, if_pos hEI]
        simp only [branch_min_arity, if_neg hE, if_pos hEI] at hb
        have hbs : bs.length < 2 := by simpa using hb
        match bs, hbs with
        | [], _ => simp [rki_step_elseif]
        | [x], _ => simp [rki_step_elseif]
      · rw [if_neg hE, if_neg hEI]
        simp only [branch_min_arity, if_neg hE, if_neg hEI] at hb
        have hbs : bs = [] := by
          cases bs with
          | nil => rfl
          | cons x xs => simp at hb
        subst hbs
        simp [rki_step_if]

/-- Key lemma for the branch-count law: when every remaining branch is
non-empty, satisfies its minimum arity and splits into well-formed keyword
calls, the `reversed(...)` loop of `create_branched` succeeds and produces a
chain whose blocks mirror the branches in original order, with the END
statement attached to the outermost block only. -/
theorem rki_build_ok (cfg : FormattingConfig) (sep : Tok) (assign : List Tok)
    (endtoks : List Tok) :
    ∀ (bs_rev : List (List Tok)) (prev : Option IfChain),
      (∀ b ∈ bs_rev, branch_min_arity b = true ∧
        create_keywords_safe (branch_args b) = true) →
      0 < bs_rev.length + (opt_kinds prev).length →
      (∀ e ∈ opt_ends prev, e = none) →
      ∃ c, rki_build cfg sep assign endtoks bs_rev prev = .rewritten c ∧
        chain_kinds c = (bs_rev.map branch_kind).reverse ++ opt_kinds prev ∧
        chain_ends c = some endtoks ::
          List.replicate (bs_rev.length + (opt_kinds prev).length - 1) none := by
  intro bs_rev
  induction bs_rev with
  | nil =>
    intro prev hok hpos hends
    match prev with
    | none => simp [opt_kinds] at hpos
    | some c =>
      refine ⟨rki_set_end c endtoks, rfl, ?_, ?_⟩
      · simp [chain_kinds_set_end, opt_kinds]
      · rw [chain_ends_set_end]
        have h1 : chain_ends c = List.replicate (chain_ends c).length none :=
          eq_replicate_none (by simpa [opt_ends] using hends)
        have h2 : (chain_ends c).length = (opt_kinds (some c)).length := by
          simp [opt_kinds, chain_ends_length_eq]
        conv_lhs => rw [h1]
        rw [List.tail_replicate]
        congr 1
        rw [h2]
        simp
  | cons b rest ih =>
    intro prev hok hpos hends
    obtain ⟨hb, hsafe⟩ := hok b (by simp)
    obtain ⟨hd, body, hstep, hhd⟩ := rki_step_ok cfg sep assign hb hsafe
    have hnewends : ∀ e ∈ opt_ends (some (.node hd body prev none)),
        e = none := by
      intro e he
      match prev with
      | none => simpa [opt_ends, chain_ends] using he
      | some c =>
        simp only [opt_ends, chain_ends] at he
        rcases List.mem_cons.mp he with h | h
        · exact h
        · exact hends e (by simpa [opt_ends] using h)
    have hnewkinds : opt_kinds (some (.node hd body prev none)) =
        header_kind hd :: opt_kinds prev := by
      match prev with
      | none => simp [opt_kinds, chain_kinds]
      | some c => simp [opt_kinds, chain_kinds]
    simp only [rki_build, hstep]
    obtain ⟨c, hc, hkinds, hends2⟩ :=
      ih (some (.node hd body prev none))
        (fun x hx => hok x (by simp [hx]))
        (by rw [hnewkinds]; simp)
        hnewends
    refine ⟨c, hc, ?_, ?_⟩
    · rw [hkinds, hnewkinds, hhd]
      simp [List.reverse_cons, List.append_assoc]
    · rw [hends2]
      congr 1
      rw [hnewkinds]
      simp

/-- Claim C1 (amended): for a `Run Keyword If` call whose argument list
splits into branches that all satisfy the minimum arity and whose
`Run Keywords` bodies put a keyword between consecutive `AND` delimiters,
`create_branched` produces an `If` chain with one block per branch in
original order: exactly one IF header, one ELSE IF header per `ELSE IF`
delimiter token, one ELSE header per `ELSE` delimiter token, and the single
END statement attached to the outermost block only. -/
theorem rki_branch_count_law (cfg : FormattingConfig) (node : KwCallNode)
    (separator : Tok) (hsep : node.tokens.head? = some separator)
    (hok : ∀ b ∈ split_args_on_delimeters (get_tokens node .ARGUMENT)
        ["ELSE", "ELSE IF"],
      branch_min_arity b = true ∧ create_keywords_safe (branch_args b) = true) :
    ∃ c, create_branched cfg node = .rewritten c ∧
      chain_kinds c = (split_args_on_delimeters (get_tokens node .ARGUMENT)
        ["ELSE", "ELSE IF"]).map branch_kind ∧
      (chain_kinds c).countP (fun k => decide (k = HKind.condIf)) = 1 ∧
      (chain_kinds c).countP (fun k => decide (k = HKind.condElseIf)) =
        (get_tokens node .ARGUMENT).countP
          (fun t => decide (t.value = "ELSE IF")) ∧
      (chain_kinds c).countP (fun k => decide (k = HKind.plainElse)) =
        (get_tokens node .ARGUMENT).countP
          (fun t => decide (t.value = "ELSE")) ∧
      chain_ends c =
        some [separator, Tok.mk .ENDTOK "END", Tok.mk .EOL "\n"] ::
          List.replicate ((chain_kinds c).length - 1) none := by
  have hne : split_args_on_delimeters (get_tokens node .ARGUMENT)
      ["ELSE", "ELSE IF"] ≠ [] := split_args_ne_nil _ _
  have hb0 := List.head_mem hne
  have harity := (hok _ hb0).1
  have hlen2 : 2 ≤ (get_tokens node .ARGUMENT).length := by
    have h1 := branch_min_arity_length harity
    have h2 := length_le_length_flatten hb0
    rw [split_args_flatten] at h2
    omega
  obtain ⟨c, hc, hkinds, hends⟩ :=
    rki_build_ok cfg separator (get_tokens node .ASSIGN)
      [separator, Tok.mk .ENDTOK "END", Tok.mk .EOL "\n"]
      ((split_args_on_delimeters (get_tokens node .ARGUMENT)
        ["ELSE", "ELSE IF"]).reverse) none
      (fun b hb => hok b (List.mem_reverse.mp hb))
      (by
        simp only [opt_kinds, List.length_nil, Nat.add_zero,
          List.length_reverse]
        exact List.length_pos.mpr hne)
      (by intro e he; simp [opt_ends] at he)
  have hkinds2 : chain_kinds c =
      (split_args_on_delimeters (get_tokens node .ARGUMENT)
        ["ELSE", "ELSE IF"]).map branch_kind := by
    rw [hkinds]
    simp [opt_kinds, List.map_reverse]
  have hcount_else :
      (split_args_on_delimeters (get_tokens node .ARGUMENT)
        ["ELSE", "ELSE IF"]).countP (seg_head_is "ELSE") =
      (get_tokens node .ARGUMENT).countP
        (fun t => decide (t.value = "ELSE")) := by
    rw [split_args_on_delimeters,
      split_args_go_countP_head _ "ELSE" (by simp) _ []]
    simp [seg_head_is]
  have hcount_elseif :
      (split_args_on_delimeters (get_tokens node .ARGUMENT)
        ["ELSE", "ELSE IF"]).countP (seg_head_is "ELSE IF") =
      (get_tokens node .ARGUMENT).countP
        (fun t => decide (t.value = "ELSE IF")) := by
    rw [split_args_on_delimeters,
      split_args_go_countP_head _ "ELSE IF" (by simp) _ []]
    simp [seg_head_is]
  have hfun_else : (fun b => decide (branch_kind b = HKind.plainElse)) =
      seg_head_is "ELSE" := by
    funext b
    cases b with
    | nil => simp [branch_kind, seg_head_is]
    | cons t bs =>
      by_cases hE : t.value = "ELSE"
      · simp [branch_kind, seg_head_is, hE]
      · by_cases hEI : t.value = "ELSE IF" <;>
          simp [branch_kind, seg_head_is, hE, hEI]
  have hfun_elseif : (fun b => decide (branch_kind b = HKind.condElseIf)) =
      seg_head_is "ELSE IF" := by
    funext b
    cases b with
    | nil => simp [branch_kind, seg_head_is]
    | cons t bs =>
      by_cases hE : t.value = "ELSE"
      · have : t.value ≠ "ELSE IF" := by rw [hE]; decide
        simp [branch_kind, seg_head_is, hE, this]
      · by_cases hEI : t.value = "ELSE IF" <;>
          simp [branch_kind, seg_head_is, hE, hEI]
  have hcE : (chain_kinds c).countP (fun k => decide (k = HKind.plainElse)) =
      (get_tokens node .ARGUMENT).countP
        (fun t => decide (t.value = "ELSE")) := by
    rw [hkinds2, List.countP_map]
    show (split_args_on_delimeters (get_tokens node .ARGUMENT)
        ["ELSE", "ELSE IF"]).countP
      (fun b => decide (branch_kind b = HKind.plainElse)) = _
    rw [hfun_else, hcount_else]
  have hcEI : (chain_kinds c).countP (fun k => decide (k = HKind.condElseIf)) =
      (get_tokens node .ARGUMENT).countP
        (fun t => decide (t.value = "ELSE IF")) := by
    rw [hkinds2, List.countP_map]
    show (split_args_on_delimeters (get_tokens node .ARGUMENT)
        ["ELSE", "ELSE IF"]).countP
      (fun b => decide (branch_kind b = HKind.condElseIf)) = _
    rw [hfun_elseif, hcount_elseif]
  have hlen_bs : (split_args_on_delimeters (get_tokens node .ARGUMENT)
      ["ELSE", "ELSE IF"]).length =
      1 + (get_tokens node .ARGUMENT).countP
        (fun t => decide (t.value ∈ (["ELSE", "ELSE IF"] : List String))) :=
    split_args_go_length _ _ []
  have hsplit_count : (get_tokens node .ARGUMENT).countP
      (fun t => decide (t.value ∈ (["ELSE", "ELSE IF"] : List String))) =
      (get_tokens node .ARGUMENT).countP
        (fun t => decide (t.value = "ELSE")) +
      (get_tokens node .ARGUMENT).countP
        (fun t => decide (t.value = "ELSE IF")) := by
    rw [← countP_add_of_disjoint _ _ _ (by
      intro x _ hx
      have h1 : x.value = "ELSE" := of_decide_eq_true hx.1
      have h2 : x.value = "ELSE IF" := of_decide_eq_true hx.2
      rw [h1] at h2
      exact absurd h2 (by decide))]
    congr 1
    funext t
    by_cases h1 : t.value = "ELSE" <;> by_cases h2 : t.value = "ELSE IF" <;>
      simp [h1, h2]
  have hpart := hkind_count_partition (chain_kinds c)
  have hlen_kinds : (chain_kinds c).length =
      (split_args_on_delimeters (get_tokens node .ARGUMENT)
        ["ELSE", "ELSE IF"]).length := by
    rw [hkinds2, List.length_map]
  have hcI : (chain_kinds c).countP (fun k => decide (k = HKind.condIf)) = 1 := by
    rw [hcE, hcEI] at hpart
    rw [hlen_kinds, hlen_bs, hsplit_count] at hpart
    omega
  refine ⟨c, ?_, hkinds2, hcI, hcEI, hcE, ?_⟩
  · simp only [create_branched, hsep]
    rw [if_neg (by omega)]
    exact hc
  · rw [hends]
    congr 2
    rw [hlen_kinds]
    simp [opt_kinds]

/-- Witness for the amended claim C1: the call
`Run Keyword If  $\x7bc\x7d  Kw1  ELSE IF  $\x7bd\x7d  Kw2  ELSE  Kw3`
(one `ELSE IF`, one `ELSE`) satisfies all hypotheses and is rewritten into
an IF / ELSE IF / ELSE chain with a single END on the outermost block. -/
theorem rki_branch_count_law_witness :
    (∀ b ∈ split_args_on_delimeters (get_tokens nodeW .ARGUMENT)
        ["ELSE", "ELSE IF"],
      branch_min_arity b = true ∧
        create_keywords_safe (branch_args b) = true) ∧
    (∃ c, create_branched cfgD nodeW = .rewritten c ∧
      chain_kinds c = (split_args_on_delimeters (get_tokens nodeW .ARGUMENT)
        ["ELSE", "ELSE IF"]).map branch_kind ∧
      (chain_kinds c).countP (fun k => decide (k = HKind.condIf)) = 1 ∧
      (chain_kinds c).countP (fun k => decide (k = HKind.condElseIf)) =
        (get_tokens nodeW .ARGUMENT).countP
          (fun t => decide (t.value = "ELSE IF")) ∧
      (chain_kinds c).countP (fun k => decide (k = HKind.plainElse)) =
        (get_tokens nodeW .ARGUMENT).countP
          (fun t => decide (t.value = "ELSE")) ∧
      chain_ends c =
        some [Tok.mk .SEPARATOR "    ", Tok.mk .ENDTOK "END",
          Tok.mk .EOL "\n"] ::
          List.replicate ((chain_kinds c).length - 1) none) :=
  ⟨by decide,
    rki_branch_count_law cfgD nodeW (Tok.mk .SEPARATOR "    ") rfl (by decide)⟩

/-- Counterexample to claim C1 as stated: the call
`Run Keyword If  $\x7bc\x7d  runkeywords  AND  Kw` has no `ELSE IF` / `ELSE`
delimiters and its single branch satisfies the minimum arity, so the claim
promises an `If` block with exactly one condition-guarded branch — but
`create_branched` raises IndexError (the `AND` split leaves an empty joined
group) and produces no rewrite at all. -/
theorem rki_branch_count_law_cex :
    (∀ b ∈ split_args_on_delimeters (get_tokens nodeX .ARGUMENT)
        ["ELSE", "ELSE IF"], branch_min_arity b = true) ∧
    (get_tokens nodeX .ARGUMENT).countP
      (fun t => decide (t.value = "ELSE IF")) = 0 ∧
    (get_tokens nodeX .ARGUMENT).countP
      (fun t => decide (t.value = "ELSE")) = 0 ∧
    is_errored (create_branched cfgD nodeX) = true :=
  ⟨by decide, by decide, by decide, by decide⟩

/-- Claim C2 (code bug): the call `Run Keyword If  ELSE  Kw` has two
argument tokens and its leading split branch is empty, violating the
minimum arity; the claim (and spec §4.4/§7) require the node to be returned
unchanged with no exception, but `create_branched` raises IndexError at
`branch[0]` instead. -/
theorem rki_arity_violation_raises :
    (get_tokens nodeY .ARGUMENT).length = 2 ∧
    (split_args_on_delimeters (get_tokens nodeY .ARGUMENT)
      ["ELSE", "ELSE IF"]).head? = some [] ∧
    branch_min_arity [] = false ∧
    is_errored (create_branched cfgD nodeY) = true :=
  ⟨rfl, by decide, rfl, by decide⟩

/-! ### Lemmas for NormalizeNewLines -/

theorem option_map_some {α β : Type} (f : α → β) (x : α) :
    Option.map f (some x) = some (f x) := rfl

theorem map_with_idx_length {α β : Type} (f : Nat → α → β) :
    ∀ (l : List α) (k : Nat), (map_with_idx f k l).length = l.length := by
  intro l
  induction l with
  | nil => intro k; rfl
  | cons x xs ih => intro k; simp [map_with_idx, ih]

theorem map_with_idx_get? {α β : Type} (f : Nat → α → β) :
    ∀ (l : List α) (k j : Nat),
      (map_with_idx f k l).get? j = (l.get? j).map (f (k + j)) := by
  intro l
  induction l with
  | nil => intro k j; simp [map_with_idx]
  | cons x xs ih =>
    intro k j
    cases j with
    | zero => simp [map_with_idx]
    | succ j =>
      rw [show map_with_idx f k (x :: xs) =
        f k x :: map_with_idx f (k + 1) xs from rfl]
      rw [List.get?_cons_succ, ih (k + 1) j, List.get?_cons_succ]
      have harg : k + 1 + j = k + (j + 1) := by omega
      rw [harg]

theorem map_with_idx_getLast? {α β : Type} (f : Nat → α → β) :
    ∀ (l : List α) (k : Nat),
      (map_with_idx f k l).getLast? =
        (l.getLast?).map (f (k + l.length - 1)) := by
  intro l
  induction l with
  | nil => intro k; simp [map_with_idx]
  | cons x xs ih =>
    intro k
    cases xs with
    | nil => simp [map_with_idx]
    | cons y ys =>
      have hcons : map_with_idx f (k + 1) (y :: ys) =
          f (k + 1) y :: map_with_idx f (k + 2) ys := rfl
      rw [show map_with_idx f k (x :: y :: ys) =
        f k x :: map_with_idx f (k + 1) (y :: ys) from rfl]
      rw [hcons, List.getLast?_cons_cons, ← hcons, ih (k + 1),
        List.getLast?_cons_cons]
      have harg : k + 1 + (y :: ys).length - 1 =
          k + (x :: y :: ys).length - 1 := by
        simp only [List.length_cons]
        omega
      rw [harg]

theorem takeWhile_replicate_append {α : Type} (p : α → Bool) (e : α)
    (he : p e = true) :
    ∀ (n : Nat) (ys : List α),
      (List.replicate n e ++ ys).takeWhile p =
        List.replicate n e ++ ys.takeWhile p := by
  intro n
  induction n with
  | zero => intro ys; simp
  | succ n ih =>
    intro ys
    simp [List.replicate_succ, List.takeWhile_cons, he, ih]

theorem head?_dropWhile_false {α : Type} (p : α → Bool) :
    ∀ (l : List α) (x : α), (l.dropWhile p).head? = some x → p x = false := by
  intro l
  induction l with
  | nil => intro x h; simp [List.dropWhile] at h
  | cons y ys ih =>
    intro x h
    rw [List.dropWhile_cons] at h
    by_cases hy : p y = true
    · rw [if_pos hy] at h
      exact ih x h
    · rw [if_neg hy] at h
      simp at h
      subst h
      simpa using hy

theorem trim_trailing_getLast_false (body : List NLItem) (x : NLItem)
    (h : (trim_trailing_empty_lines body).getLast? = some x) :
    is_empty_line x = false := by
  rw [trim_trailing_empty_lines, List.getLast?_reverse] at h
  exact head?_dropWhile_false is_empty_line _ x h

theorem nl_trimmed_getLast_false (body : List NLItem) (x : NLItem)
    (h : (nl_trimmed body).getLast? = some x) : is_empty_line x = false :=
  trim_trailing_getLast_false _ x h

theorem trailing_empty_count_append_replicate (xs : List NLItem) (n : Nat)
    (h : ∀ x, xs.getLast? = some x → is_empty_line x = false) :
    trailing_empty_count (xs ++ List.replicate n .emptyLine) = n := by
  rw [trailing_empty_count, List.reverse_append, List.reverse_replicate]
  rw [takeWhile_replicate_append is_empty_line .emptyLine rfl]
  rw [List.length_append, List.length_replicate]
  have hx : (xs.reverse).takeWhile is_empty_line = [] := by
    cases hrev : xs.reverse with
    | nil => rfl
    | cons y ys =>
      have hy : xs.getLast? = some y := by
        rw [← List.head?_reverse, hrev]
        rfl
      rw [List.takeWhile_cons, h y hy]
      rfl
  rw [hx]
  rfl

/-- The child-visiting function of `nl_visit_Section`, named so the
traversal lemmas can speak about it. -/
def nl_child_fn (cfg : NLConfig) (templated : Bool) (sec : NLSection)
    (j : Nat) (it : NLItem) : NLItem :=
  match it with
  | .testCase b =>
    .testCase (nl_visit_TestCase cfg templated
      ((decide (sec.kind = NLKind.testCases) && nl_last_is_test sec.body) &&
        decide (j + 1 = (nl_trimmed sec.body).length)) b)
  | .keywordDef b =>
    .keywordDef (nl_visit_Keyword cfg
      ((decide (sec.kind = NLKind.keywords) && nl_last_is_keyword sec.body) &&
        decide (j + 1 = (nl_trimmed sec.body).length)) b)
  | x => x

theorem nl_visit_Section_kind (cfg : NLConfig) (templated isLast : Bool)
    (sec : NLSection) :
    (nl_visit_Section cfg templated isLast sec).kind = sec.kind := rfl

theorem nl_visit_Section_body (cfg : NLConfig) (templated isLast : Bool)
    (sec : NLSection) :
    (nl_visit_Section cfg templated isLast sec).body =
      map_with_idx (nl_child_fn cfg templated sec) 0 (nl_trimmed sec.body) ++
      List.replicate (if isLast = true then 1 else cfg.section_lines)
        .emptyLine := rfl

theorem nl_visit_TestCase_eq (cfg : NLConfig) (templated isLast : Bool)
    (body : List NLItem) :
    nl_visit_TestCase cfg templated isLast body =
      if isLast = true then nl_trimmed body
      else if templated = true then nl_trimmed body
      else nl_trimmed body ++
        List.replicate cfg.test_case_lines .emptyLine := rfl

theorem nl_visit_Keyword_eq (cfg : NLConfig) (isLast : Bool)
    (body : List NLItem) :
    nl_visit_Keyword cfg isLast body =
      if isLast = true then nl_trimmed body
      else nl_trimmed body ++
        List.replicate (nl_keyword_lines cfg) .emptyLine := rfl

theorem nl_child_fn_empty (cfg : NLConfig) (templated : Bool)
    (sec : NLSection) (j : Nat) (it : NLItem) :
    is_empty_line (nl_child_fn cfg templated sec j it) = is_empty_line it := by
  cases it <;> rfl

/-- Claim C3 (amended): NormalizeNewLines trims leading/trailing blank lines
of every section, test and keyword body and appends the configured blank
count, where the last section of the document gets exactly one trailing
blank line, the test/keyword block sitting last in its section's body gets
none, and — the amendment — in a templated document (a non-empty
`Test Template` anywhere, with `separate_templated_tests` unset) test cases
get no trailing blank lines at all. -/
theorem nnl_blank_line_law (cfg : NLConfig) (secs : List NLSection) :
    (normalize_new_lines cfg secs).length = secs.length ∧
    ∀ i (hi : i < secs.length), ∃ s',
      (normalize_new_lines cfg secs).get? i = some s' ∧
      s'.kind = (secs.get ⟨i, hi⟩).kind ∧
      trailing_empty_count s'.body =
        (if i + 1 = secs.length then 1 else cfg.section_lines) ∧
      (∀ j b, (nl_trimmed (secs.get ⟨i, hi⟩).body).get? j =
          some (.testCase b) →
        s'.body.get? j = some (.testCase (nl_trimmed b ++
          List.replicate
            (if (secs.get ⟨i, hi⟩).kind = .testCases ∧
                nl_last_is_test (secs.get ⟨i, hi⟩).body = true ∧
                j + 1 = (nl_trimmed (secs.get ⟨i, hi⟩).body).length then 0
             else if (!cfg.separate_templated_tests &&
                nl_is_templated secs) = true then 0
             else cfg.test_case_lines) .emptyLine))) ∧
      (∀ j b, (nl_trimmed (secs.get ⟨i, hi⟩).body).get? j =
          some (.keywordDef b) →
        s'.body.get? j = some (.keywordDef (nl_trimmed b ++
          List.replicate
            (if (secs.get ⟨i, hi⟩).kind = .keywords ∧
                nl_last_is_keyword (secs.get ⟨i, hi⟩).body = true ∧
                j + 1 = (nl_trimmed (secs.get ⟨i, hi⟩).body).length then 0
             else nl_keyword_lines cfg) .emptyLine))) := by
  constructor
  · rw [normalize_new_lines, map_with_idx_length]
  intro i hi
  have hget : (normalize_new_lines cfg secs).get? i =
      some (nl_visit_Section cfg
        (!cfg.separate_templated_tests && nl_is_templated secs)
        (decide (i + 1 = secs.length)) (secs.get ⟨i, hi⟩)) := by
    rw [normalize_new_lines, map_with_idx_get?, List.get?_eq_get hi]
    simp only [option_map_some, Nat.zero_add]
  refine ⟨_, hget, nl_visit_Section_kind _ _ _ _, ?_, ?_, ?_⟩
  · -- trailing blank count of the section body
    rw [nl_visit_Section_body]
    rw [trailing_empty_count_append_replicate]
    · simp only [decide_eq_true_eq]
    · intro x hx
      rw [map_with_idx_getLast?] at hx
      cases hlast : (nl_trimmed (secs.get ⟨i, hi⟩).body).getLast? with
      | none => rw [hlast] at hx; simp at hx
      | some y =>
        rw [hlast] at hx
        simp only [option_map_some, Option.some.injEq] at hx
        have hy := nl_trimmed_getLast_false _ y hlast
        rw [← hx, nl_child_fn_empty]
        exact hy
  · -- test-case bodies
    intro j b hj
    have hjlt : j < (nl_trimmed (secs.get ⟨i, hi⟩).body).length := by
      by_contra hcon
      rw [List.get?_eq_none.mpr (by omega)] at hj
      exact Option.noConfusion hj
    rw [nl_visit_Section_body]
    rw [List.get?_append (by rw [map_with_idx_length]; exact hjlt)]
    rw [map_with_idx_get?, hj]
    simp only [option_map_some, Nat.zero_add]
    have hchild : nl_child_fn cfg
        (!cfg.separate_templated_tests && nl_is_templated secs)
        (secs.get ⟨i, hi⟩) j (.testCase b) =
        .testCase (nl_visit_TestCase cfg
          (!cfg.separate_templated_tests && nl_is_templated secs)
          ((decide ((secs.get ⟨i, hi⟩).kind = NLKind.testCases) &&
            nl_last_is_test (secs.get ⟨i, hi⟩).body) &&
            decide (j + 1 = (nl_trimmed (secs.get ⟨i, hi⟩).body).length))
          b) := rfl
    rw [hchild]
    congr 1
    rw [nl_visit_TestCase_eq]
    by_cases hcond : ((secs.get ⟨i, hi⟩).kind = NLKind.testCases ∧
        nl_last_is_test (secs.get ⟨i, hi⟩).body = true ∧
        j + 1 = (nl_trimmed (secs.get ⟨i, hi⟩).body).length)
    · rw [if_pos hcond]
      rw [if_pos (by
        simp only [Bool.and_eq_true, decide_eq_true_eq]
        exact ⟨⟨hcond.1, hcond.2.1⟩, hcond.2.2⟩)]
      simp
    · rw [if_neg hcond]
      rw [if_neg (by
        intro hb
        simp only [Bool.and_eq_true, decide_eq_true_eq] at hb
        exact hcond ⟨hb.1.1, hb.1.2, hb.2⟩)]
      by_cases ht : (!cfg.separate_templated_tests &&
          nl_is_templated secs) = true
      · rw [if_pos ht, if_pos ht]
        simp
      · rw [if_neg ht, if_neg ht]
  · -- keyword bodies
    intro j b hj
    have hjlt : j < (nl_trimmed (secs.get ⟨i, hi⟩).body).length := by
      by_contra hcon
      rw [List.get?_eq_none.mpr (by omega)] at hj
      exact Option.noConfusion hj
    rw [nl_visit_Section_body]
    rw [List.get?_append (by rw [map_with_idx_length]; exact hjlt)]
    rw [map_with_idx_get?, hj]
    simp only [option_map_some, Nat.zero_add]
    have hchild : nl_child_fn cfg
        (!cfg.separate_templated_tests && nl_is_templated secs)
        (secs.get ⟨i, hi⟩) j (.keywordDef b) =
        .keywordDef (nl_visit_Keyword cfg
          ((decide ((secs.get ⟨i, hi⟩).kind = NLKind.keywords) &&
            nl_last_is_keyword (secs.get ⟨i, hi⟩).body) &&
            decide (j + 1 = (nl_trimmed (secs.get ⟨i, hi⟩).body).length))
          b) := rfl
    rw [hchild]
    congr 1
    rw [nl_visit_Keyword_eq]
    by_cases hcond : ((secs.get ⟨i, hi⟩).kind = NLKind.keywords ∧
        nl_last_is_keyword (secs.get ⟨i, hi⟩).body = true ∧
        j + 1 = (nl_trimmed (secs.get ⟨i, hi⟩).body).length)
    · rw [if_pos hcond]
      rw [if_pos (by
        simp only [Bool.and_eq_true, decide_eq_true_eq]
        exact ⟨⟨hcond.1, hcond.2.1⟩, hcond.2.2⟩)]
      simp
    · rw [if_neg hcond]
      rw [if_neg (by
        intro hb
        simp only [Bool.and_eq_true, decide_eq_true_eq] at hb
        exact hcond ⟨hb.1.1, hb.1.2, hb.2⟩)]

/-- Witness for the amended claim C3 on a concrete three-section document:
the middle (test-case) section keeps `section_lines = 1` trailing blank,
its first test gains exactly `test_case_lines = 1` trailing blank and its
last test none. -/
theorem nnl_blank_line_law_witness :
    ∃ s', (normalize_new_lines cfgNL secsW).get? 1 = some s' ∧
      s'.kind = NLKind.testCases ∧
      trailing_empty_count s'.body = 1 ∧
      s'.body.get? 0 = some (.testCase (nl_trimmed
        ([.plainStmt, .emptyLine] : List NLItem) ++
          List.replicate 1 .emptyLine)) ∧
      s'.body.get? 1 = some (.testCase (nl_trimmed
        ([.emptyLine, .plainStmt] : List NLItem) ++
          List.replicate 0 .emptyLine)) := by
  obtain ⟨hlen, hall⟩ := nnl_blank_line_law cfgNL secsW
  obtain ⟨s', h1, h2, h3, h4, h5⟩ := hall 1 (by decide)
  refine ⟨s', h1, by rw [h2]; rfl, by rw [h3]; rfl, ?_, ?_⟩
  · have h := h4 0 [.plainStmt, .emptyLine] (by rfl)
    rw [h]
    rfl
  · have h := h4 1 [.emptyLine, .plainStmt] (by rfl)
    rw [h]
    rfl

/-- Counterexample to claim C3 as stated: in a templated document (default
configuration, `test_case_lines = 1`) the non-last test case receives no
trailing blank line at all, not the configured count: the first test's body
comes out as `[plainStmt]` with zero trailing blank lines. -/
theorem nnl_blank_line_law_cex :
    cfgNL.test_case_lines = 1 ∧
    normalize_new_lines cfgNL secsT =
      [⟨.plain, [.testTemplate true, .emptyLine]⟩,
       ⟨.testCases, [.testCase [.plainStmt], .testCase [.plainStmt],
         .emptyLine]⟩] ∧
    trailing_empty_count [NLItem.plainStmt] = 0 :=
  ⟨rfl, by rfl, rfl⟩

/-! ### Per-document state isolation (C7) -/

/-- Claim C7: processing document A and then document B with the same rule
instance yields the same output for B as processing B alone — both
`AssignmentNormalizer` (the autodetected file sign) and
`RemoveEmptySettings` (the suite-override set) leave their per-document
state reset after every file traversal. -/
theorem per_document_state_isolation :
    (∀ (eqT : Option String) (A B : List AItem),
      (an_process_file eqT (an_process_file eqT none A).2 B).1 =
        (an_process_file eqT none B).1) ∧
    (∀ (fcfg : FormattingConfig) (wm : String) (me : Bool)
        (A B : List RStmt),
      (res_process_file fcfg wm me (res_process_file fcfg wm me [] A).2 B).1 =
        (res_process_file fcfg wm me [] B).1) := by
  constructor
  · intro eqT A B
    have h : (an_process_file eqT none A).2 = none := by
      match eqT with
      | some t => rfl
      | none => cases hd : an_detect A <;> simp [an_process_file, hd]
    rw [h]
  · intro fcfg wm me A B
    have h : (res_process_file fcfg wm me [] A).2 = [] := rfl
    rw [h]

/-! ### DiscardEmptySections (C9) -/

theorem des_all_iff (allow cs : Bool) (body : List DESChild) :
    body.all (fun child =>
      if allow || cs then decide (child = DESChild.emptyLineD)
      else decide (child = DESChild.emptyLineD) ||
        decide (child = DESChild.commentD)) = true ↔
    ((∀ c ∈ body, c = DESChild.emptyLineD) ∨
     (allow = false ∧ cs = false ∧
      ∀ c ∈ body, c = DESChild.emptyLineD ∨ c = DESChild.commentD)) := by
  cases allow <;> cases cs <;> simp [List.all_eq_true]
  intro h x hx
  exact Or.inl (h x hx)

/-- Claim C9: an in-scope section is deleted by DiscardEmptySections exactly
when all its statements are blank lines, or — when `allow_only_comments` is
off and the section is not a Comments section — all are blank lines and
comments; any section not classified as removable is returned unchanged. -/
theorem des_removable_iff (allow_only_comments : Bool)
    (fcfg : FormattingConfig) (node : DESSection)
    (hin : node_outside_selection_lines node.lineno node.end_lineno fcfg
      = false) :
    (des_visit_Section allow_only_comments fcfg node = none ↔
      ((∀ c ∈ node.body, c = DESChild.emptyLineD) ∨
       (allow_only_comments = false ∧ node.isCommentSection = false ∧
        ∀ c ∈ node.body,
          c = DESChild.emptyLineD ∨ c = DESChild.commentD))) ∧
    (des_visit_Section allow_only_comments fcfg node ≠ none →
      des_visit_Section allow_only_comments fcfg node = some node) := by
  rw [des_visit_Section, if_neg (by simp [hin])]
  by_cases hall : node.body.all (fun child =>
      if allow_only_comments || node.isCommentSection then
        decide (child = DESChild.emptyLineD)
      else decide (child = DESChild.emptyLineD) ||
        decide (child = DESChild.commentD)) = true
  · rw [if_pos hall]
    refine ⟨?_, by intro h; exact absurd rfl h⟩
    simp only [true_iff]
    exact (des_all_iff allow_only_comments node.isCommentSection
      node.body).mp hall
  · rw [if_neg hall]
    refine ⟨?_, fun _ => rfl⟩
    constructor
    · intro h
      exact absurd h (by simp)
    · intro h
      exact absurd ((des_all_iff allow_only_comments node.isCommentSection
        node.body).mpr h) hall

/-- Witness for claim C9: with comment removal permitted
(`allow_only_comments = False`), a non-Comments section holding one blank
line and one comment is deleted, and with the body holding a data statement
it is not. -/
theorem des_removable_iff_witness :
    node_outside_selection_lines 1 1 cfgD = false ∧
    (des_visit_Section false cfgD
      ⟨false, [DESChild.emptyLineD, DESChild.commentD], 1, 1⟩ = none ↔
      ((∀ c ∈ [DESChild.emptyLineD, DESChild.commentD],
          c = DESChild.emptyLineD) ∨
       (false = false ∧ false = false ∧
        ∀ c ∈ [DESChild.emptyLineD, DESChild.commentD],
          c = DESChild.emptyLineD ∨ c = DESChild.commentD))) := by
  refine ⟨by decide, ?_⟩
  exact (des_removable_iff false cfgD
    ⟨false, [DESChild.emptyLineD, DESChild.commentD], 1, 1⟩ (by decide)).1

/-! ### Construction-time parameter validation (C8) -/

theorem parse_skip_types_go_error :
    ∀ l : List String,
      (∃ st ∈ l, st ∉ (["dict", "list", "scalar"] : List String)) →
      ∃ st, st ∈ l ∧ st ∉ (["dict", "list", "scalar"] : List String) ∧
        parse_skip_types_go l = .error ⟨"AlignVariablesSection", "skip_type",
          st,
          "Variable types should be provided in comma separated list:\nskip_type=dict,list,scalar"⟩ := by
  intro l
  induction l with
  | nil => rintro ⟨st, hst, _⟩; cases hst
  | cons x rest ih =>
    intro hex
    by_cases hx : x ∈ (["dict", "list", "scalar"] : List String)
    · have hex' : ∃ st ∈ rest, st ∉ (["dict", "list", "scalar"] :
          List String) := by
        obtain ⟨st, hmem, hbad⟩ := hex
        rcases List.mem_cons.mp hmem with h | h
        · exact absurd (h ▸ hx) hbad
        · exact ⟨st, h, hbad⟩
      obtain ⟨st, hmem, hbad, herr⟩ := ih hex'
      refine ⟨st, List.mem_cons_of_mem x hmem, hbad, ?_⟩
      simp only [List.mem_cons, List.not_mem_nil, or_false] at hx
      rcases hx with h | h | h <;> subst h <;>
        simp +decide [parse_skip_types_go, herr, Except.map]
    · simp only [List.mem_cons, List.mem_singleton, not_or] at hx
      refine ⟨x, List.mem_cons_self x rest, by simp [hx.1, hx.2.1, hx.2.2], ?_⟩
      simp [parse_skip_types_go, hx.1, hx.2.1, hx.2.2]

/-- Claim C8: every closed-choice parameter outside its domain raises a
configuration error at construction time — before any document is visited,
since the constructors take no document — and the error carries the
offending value together with the message listing the accepted values
(`AssignmentNormalizer.equal_sign_type`, `RemoveEmptySettings.work_mode`,
`AlignVariablesSection.skip_types`). -/
theorem config_error_on_invalid_value (v1 v2 v3 : String) (me : Bool)
    (upc mw : Nat)
    (h1 : v1 ∉ (["remove", "equal_sign", "space_and_equal_sign",
      "autodetect"] : List String))
    (h2 : v2 ∉ (["overwrite_ok", "always"] : List String))
    (h3 : ∃ st ∈ split_on_comma v3,
      st ∉ (["dict", "list", "scalar"] : List String))
    (h3e : v3 ≠ "") :
    parse_equal_sign_type v1 = .error ⟨"transform",
      "Invalid configurable value: " ++ v1 ++
      " for equal_sign_type for AssignmentNormalizer transformer." ++
      " Possible values:\n    remove\n    equal_sign\n    space_and_equal_sign"⟩ ∧
    RemoveEmptySettings_init v2 me = .error ⟨"RemoveEmptySettings",
      "work_mode", v2, "Possible values:\n    overwrite_ok\n    always"⟩ ∧
    ∃ st, st ∈ split_on_comma v3 ∧
      st ∉ (["dict", "list", "scalar"] : List String) ∧
      AlignVariablesSection_init upc v3 mw = .error
        ⟨"AlignVariablesSection", "skip_type", st,
        "Variable types should be provided in comma separated list:\nskip_type=dict,list,scalar"⟩ := by
  simp only [List.mem_cons, List.mem_singleton, not_or] at h1 h2
  refine ⟨?_, ?_, ?_⟩
  · simp [parse_equal_sign_type, h1.1, h1.2.1, h1.2.2.1, h1.2.2.2]
  · rw [RemoveEmptySettings_init, if_pos (by simp [h2.1, h2.2])]
  · obtain ⟨st, hmem, hbad, herr⟩ := parse_skip_types_go_error _ h3
    refine ⟨st, hmem, hbad, ?_⟩
    rw [AlignVariablesSection_init, parse_skip_types, if_neg h3e, herr]
    rfl

/-- Witness for claim C8 at concrete invalid values: `equal_sign_type
"wrong"`, `work_mode "sometimes"`, `skip_types "tuple"`. -/
theorem config_error_on_invalid_value_witness :
    ("wrong" ∉ (["remove", "equal_sign", "space_and_equal_sign",
        "autodetect"] : List String)) ∧
    ("sometimes" ∉ (["overwrite_ok", "always"] : List String)) ∧
    (parse_equal_sign_type "wrong" = .error ⟨"transform",
      "Invalid configurable value: " ++ "wrong" ++
      " for equal_sign_type for AssignmentNormalizer transformer." ++
      " Possible values:\n    remove\n    equal_sign\n    space_and_equal_sign"⟩ ∧
    RemoveEmptySettings_init "sometimes" true = .error
      ⟨"RemoveEmptySettings", "work_mode", "sometimes",
       "Possible values:\n    overwrite_ok\n    always"⟩ ∧
    ∃ st, st ∈ split_on_comma "tuple" ∧
      st ∉ (["dict", "list", "scalar"] : List String) ∧
      AlignVariablesSection_init 2 "tuple" 0 = .error
        ⟨"AlignVariablesSection", "skip_type", st,
        "Variable types should be provided in comma separated list:\nskip_type=dict,list,scalar"⟩) :=
  ⟨by decide, by decide,
    config_error_on_invalid_value "wrong" "sometimes" "tuple" true 2 0
      (by decide) (by decide) ⟨"tuple", by decide, by decide⟩ (by decide)⟩

/-! ### RemoveEmptySettings (C5) -/

theorem find_overwritten_go (k : TokType) :
    ∀ (file : List RStmt) (acc : List TokType),
      (k ∈ file.foldl find_ow_step acc ↔
      k ∈ acc ∨ ∃ st ∈ file, suite_cls_token st.cls = some k ∧
        (data_tokens st.tokens).length ≠ 1) := by
  intro file
  induction file with
  | nil => intro acc; simp
  | cons st rest ih =>
    intro acc
    rw [List.foldl_cons]
    cases hcls : suite_cls_token st.cls with
    | none =>
      rw [show find_ow_step acc st = acc by simp [find_ow_step, hcls], ih]
      constructor
      · rintro (h | ⟨st', hmem, hk, hlen⟩)
        · exact Or.inl h
        · exact Or.inr ⟨st', List.mem_cons_of_mem st hmem, hk, hlen⟩
      · rintro (h | ⟨st', hmem, hk, hlen⟩)
        · exact Or.inl h
        · rcases List.mem_cons.mp hmem with he | he
          · rw [he, hcls] at hk
            cases hk
          · exact Or.inr ⟨st', he, hk, hlen⟩
    | some k' =>
      by_cases hlen : (data_tokens st.tokens).length ≠ 1
      · rw [show find_ow_step acc st = k' :: acc by
          simp [find_ow_step, hcls, if_pos hlen], ih]
        constructor
        · rintro (h | ⟨st', hmem, hk, hl⟩)
          · rcases List.mem_cons.mp h with he | he
            · exact Or.inr ⟨st, List.mem_cons_self st rest,
                by rw [hcls, he], hlen⟩
            · exact Or.inl he
          · exact Or.inr ⟨st', List.mem_cons_of_mem st hmem, hk, hl⟩
        · rintro (h | ⟨st', hmem, hk, hl⟩)
          · exact Or.inl (List.mem_cons_of_mem k' h)
          · rcases List.mem_cons.mp hmem with he | he
            · subst he
              rw [hcls] at hk
              cases hk
              exact Or.inl (List.mem_cons_self _ acc)
            · exact Or.inr ⟨st', he, hk, hl⟩
      · rw [show find_ow_step acc st = acc by
          simp [find_ow_step, hcls, if_neg hlen], ih]
        constructor
        · rintro (h | ⟨st', hmem, hk, hl⟩)
          · exact Or.inl h
          · exact Or.inr ⟨st', List.mem_cons_of_mem st hmem, hk, hl⟩
        · rintro (h | ⟨st', hmem, hk, hl⟩)
          · exact Or.inl h
          · rcases List.mem_cons.mp hmem with he | he
            · subst he
              rw [hcls] at hk
              cases hk
              exact absurd hl hlen
            · exact Or.inr ⟨st', he, hk, hl⟩

theorem find_overwritten_mem (file : List RStmt) (k : TokType)
    (hnames : ∀ st ∈ file, suite_cls_token st.cls ≠ none →
      1 ≤ (data_tokens st.tokens).length) :
    (k ∈ find_overwritten_settings file ↔
      ∃ st ∈ file, suite_cls_token st.cls = some k ∧
        2 ≤ (data_tokens st.tokens).length) := by
  rw [find_overwritten_settings, find_overwritten_go]
  simp only [List.not_mem_nil, false_or]
  constructor
  · rintro ⟨st, hmem, hk, hlen⟩
    have h1 := hnames st hmem (by rw [hk]; exact fun h => Option.noConfusion h)
    exact ⟨st, hmem, hk, by omega⟩
  · rintro ⟨st, hmem, hk, hlen⟩
    exact ⟨st, hmem, hk, by omega⟩

/-- Claim C5: in the default `overwrite_ok` mode with `more_explicit` on,
an in-scope setting statement carrying only its name token is rewritten in
place to `[indent][name][separator]NONE[EOL]` exactly when its kind is
overridable and the suite declares a non-empty suite-level setting of the
same kind; otherwise it is deleted. -/
theorem res_empty_setting_law (fcfg : FormattingConfig) (file : List RStmt)
    (node : RStmt)
    (hin : node_outside_selection_lines node.lineno node.end_lineno fcfg
      = false)
    (hset : node.typ ∈ SETTING_TOKEN_TYPES)
    (hone : (data_tokens node.tokens).length = 1)
    (hnames : ∀ st ∈ file, suite_cls_token st.cls ≠ none →
      1 ≤ (data_tokens st.tokens).length) :
    (∀ t0, (data_tokens node.tokens).head? = some t0 →
      node.typ ∈ res_child_types →
      (∃ st ∈ file, suite_cls_token st.cls = some node.typ ∧
        2 ≤ (data_tokens st.tokens).length) →
      res_visit_Statement fcfg "overwrite_ok" true
        (find_overwritten_settings file) node =
        some { node with tokens := [Tok.mk .SEPARATOR (res_indent node),
          t0, Tok.mk .SEPARATOR fcfg.separator, Tok.mk .ARGUMENT "NONE",
          Tok.mk .EOL "\n"] }) ∧
    (¬(node.typ ∈ res_child_types ∧
        ∃ st ∈ file, suite_cls_token st.cls = some node.typ ∧
          2 ≤ (data_tokens st.tokens).length) →
      res_visit_Statement fcfg "overwrite_ok" true
        (find_overwritten_settings file) node = none) := by
  constructor
  · intro t0 ht0 hchild hsuite
    rw [res_visit_Statement, if_neg (by simp [hin]),
      if_neg (by
        simp only [not_or, not_not]
        exact ⟨hset, hone⟩),
      if_neg (by
        simp only [not_or, not_not]
        exact ⟨hchild, by decide,
          (find_overwritten_mem file node.typ hnames).mpr hsuite⟩),
      if_pos rfl]
    have hhd : (data_tokens node.tokens).headD (Tok.mk .EOL "") = t0 := by
      rw [List.headD_eq_head?_getD, ht0]
      rfl
    rw [hhd]
    rfl
  · intro hneg
    rw [res_visit_Statement, if_neg (by simp [hin]),
      if_neg (by
        simp only [not_or, not_not]
        exact ⟨hset, hone⟩),
      if_pos (by
        by_cases hchild : node.typ ∈ res_child_types
        · refine Or.inr (Or.inr ?_)
          intro hmem
          exact hneg ⟨hchild,
            (find_overwritten_mem file node.typ hnames).mp hmem⟩
        · exact Or.inl hchild)]

/-- Witness for claim C5: a suite with a non-empty `Test Timeout`; the empty
`[Timeout]` statement (indented by four spaces) is rewritten to
`[Timeout]    NONE` preserving its indentation, while an empty
`Documentation` is deleted. -/
theorem res_empty_setting_law_witness :
    (res_visit_Statement cfgD "overwrite_ok" true
      (find_overwritten_settings resFileW)
      ⟨.otherC, .TIMEOUT, [Tok.mk .SEPARATOR "    ",
        Tok.mk .TIMEOUT "[Timeout]", Tok.mk .EOL "\n"], 2, 2⟩ =
      some ⟨.otherC, .TIMEOUT, [Tok.mk .SEPARATOR "    ",
        Tok.mk .TIMEOUT "[Timeout]", Tok.mk .SEPARATOR "    ",
        Tok.mk .ARGUMENT "NONE", Tok.mk .EOL "\n"], 2, 2⟩) ∧
    (res_visit_Statement cfgD "overwrite_ok" true
      (find_overwritten_settings resFileW)
      ⟨.otherC, .DOCUMENTATION, [Tok.mk .DOCUMENTATION "Documentation",
        Tok.mk .EOL "\n"], 3, 3⟩ = none) := by
  constructor
  · have h := (res_empty_setting_law cfgD resFileW
      ⟨.otherC, .TIMEOUT, [Tok.mk .SEPARATOR "    ",
        Tok.mk .TIMEOUT "[Timeout]", Tok.mk .EOL "\n"], 2, 2⟩
      (by decide) (by decide) (by decide) (by decide)).1
      (Tok.mk .TIMEOUT "[Timeout]") rfl (by decide)
      ⟨⟨.testTimeoutC, .TEST_TIMEOUT, [Tok.mk .TEST_TIMEOUT "Test Timeout",
        Tok.mk .SEPARATOR "    ", Tok.mk .ARGUMENT "1 min",
        Tok.mk .EOL "\n"], 1, 1⟩, by decide, by decide, by decide⟩
    rw [h]
    rfl
  · exact (res_empty_setting_law cfgD resFileW
      ⟨.otherC, .DOCUMENTATION, [Tok.mk .DOCUMENTATION "Documentation",
        Tok.mk .EOL "\n"], 3, 3⟩
      (by decide) (by decide) (by decide) (by decide)).2 (by decide)

/-! ### AssignmentNormalizer: counter model lemmas (C6, C10) -/

theorem string_append_empty (s : String) : s ++ "" = s := by
  cases s with
  | mk l =>
    show String.mk (l ++ []) = String.mk l
    rw [List.append_nil]

theorem an_norm_item_spec (s : String) (it : AItem) :
    an_norm_item none (some s) it = an_spec_item s it := by
  have hnorm : ∀ v, normalize_equal_sign none (some s) v =
      remove_equal_sign_sub v ++ s := by
    intro v
    rw [normalize_equal_sign, if_neg (by simp [truthyS])]
    by_cases hs : s.data.isEmpty = true
    · rw [if_neg (by simp [truthyS, hs])]
      have hse : s = "" := by
        cases s with
        | mk l =>
          cases l with
          | nil => rfl
          | cons c cs => simp at hs
      rw [hse, string_append_empty]
    · rw [if_pos (by simp [truthyS, hs])]
      rfl
  cases it with
  | varDef v => simp [an_norm_item, an_spec_item, hnorm]
  | kwCall assign =>
    cases h : assign.getLast? <;>
      simp [an_norm_item, an_spec_item, h, hnorm]
  | plainA => rfl

theorem counter_any_iff (acc : List (String × Nat)) (x : String) :
    acc.any (fun q => decide (q.1 = x)) = true ↔ x ∈ acc.map Prod.fst := by
  rw [List.any_eq_true]
  constructor
  · rintro ⟨q, hq, hqx⟩
    have he := of_decide_eq_true hqx
    exact he ▸ List.mem_map_of_mem Prod.fst hq
  · intro h
    obtain ⟨q, hq, he⟩ := List.mem_map.mp h
    exact ⟨q, hq, decide_eq_true (by rw [he])⟩

theorem counter_add_keys (acc : List (String × Nat)) (x : String)
    (hx : acc.any (fun q => decide (q.1 = x)) = true) :
    (counter_add acc x).map Prod.fst = acc.map Prod.fst := by
  rw [counter_add, if_pos hx, List.map_map]
  apply List.map_congr_left
  intro q _
  by_cases h : q.1 = x <;> simp [Function.comp, h]

theorem counter_fold_invariant :
    ∀ (seq pre : List String) (acc : List (String × Nat)),
      (∀ p ∈ acc, p.2 = pre.count p.1) →
      (∀ k, k ∈ acc.map Prod.fst ↔ k ∈ pre) →
      ((acc.map Prod.fst).Nodup) →
      (∀ p ∈ seq.foldl counter_add acc, p.2 = (pre ++ seq).count p.1) ∧
      (∀ k, k ∈ (seq.foldl counter_add acc).map Prod.fst ↔ k ∈ pre ++ seq) ∧
      (((seq.foldl counter_add acc).map Prod.fst).Nodup) := by
  intro seq
  induction seq with
  | nil =>
    intro pre acc h1 h2 h3
    refine ⟨by simpa using h1, ?_, h3⟩
    intro k
    rw [List.append_nil]
    exact h2 k
  | cons x seq ih =>
    intro pre acc h1 h2 h3
    rw [List.foldl_cons]
    have key := ih (pre ++ [x]) (counter_add acc x) ?_ ?_ ?_
    · refine ⟨?_, ?_, key.2.2⟩
      · intro p hp
        rw [key.1 p hp]
        congr 1
        simp
      · intro k
        rw [key.2.1 k]
        simp
    · -- counts after counter_add
      intro p hp
      by_cases hx : acc.any (fun q => decide (q.1 = x)) = true
      · rw [counter_add, if_pos hx] at hp
        obtain ⟨q, hq, hfq⟩ := List.mem_map.mp hp
        by_cases hqx : q.1 = x
        · rw [if_pos hqx] at hfq
          rw [← hfq]
          simp only [List.count_append]
          rw [h1 q hq]
          have hone : List.count q.1 [x] = 1 := by
            rw [hqx]
            simp
          rw [hone]
        · rw [if_neg hqx] at hfq
          rw [← hfq]
          simp only [List.count_append]
          rw [h1 q hq]
          have hz : List.count q.1 [x] = 0 := by
            rw [List.count_eq_zero]
            simp [hqx]
          rw [hz]
          omega
      · rw [counter_add, if_neg hx] at hp
        rcases List.mem_append.mp hp with hq | hq
        · have hkey : p.1 ≠ x := by
            intro he
            exact hx ((counter_any_iff acc x).mpr
              (he ▸ List.mem_map_of_mem Prod.fst hq))
          simp only [List.count_append]
          rw [h1 p hq]
          have hz : List.count p.1 [x] = 0 := by
            rw [List.count_eq_zero]
            simp [hkey]
          rw [hz]
          omega
        · simp only [List.mem_singleton] at hq
          subst hq
          simp only [List.count_append]
          have hxpre : x ∉ pre := by
            intro hmem
            exact hx ((counter_any_iff acc x).mpr ((h2 x).mpr hmem))
          rw [List.count_eq_zero.mpr hxpre]
          simp
    · -- key membership after counter_add
      intro k
      by_cases hx : acc.any (fun q => decide (q.1 = x)) = true
      · rw [counter_add_keys acc x hx]
        have hxpre : x ∈ pre := (h2 x).mp ((counter_any_iff acc x).mp hx)
        rw [h2 k]
        constructor
        · intro h
          exact List.mem_append_left [x] h
        · intro h
          rcases List.mem_append.mp h with h | h
          · exact h
          · simp only [List.mem_singleton] at h
            exact h ▸ hxpre
      · rw [counter_add, if_neg hx, List.map_append]
        simp only [List.map_cons, List.map_nil, List.mem_append,
          List.mem_singleton, h2 k]
    · -- nodup after counter_add
      by_cases hx : acc.any (fun q => decide (q.1 = x)) = true
      · rw [counter_add_keys acc x hx]
        exact h3
      · rw [counter_add, if_neg hx, List.map_append]
        simp only [List.map_cons, List.map_nil]
        rw [List.nodup_append]
        refine ⟨h3, List.nodup_singleton x, ?_⟩
        intro a ha hb
        simp only [List.mem_singleton] at hb
        subst hb
        exact hx ((counter_any_iff acc a).mpr ha)

theorem mc_fold_spec :
    ∀ (c : List (String × Nat)) (q : String × Nat),
      ∃ r, c.foldl (fun best p =>
          match best with
          | none => some p
          | some q' => if q'.2 < p.2 then some p else some q') (some q) =
        some r ∧
        ((r = q ∧ ∀ p ∈ c, p.2 ≤ q.2) ∨
         (∃ pre post, c = pre ++ r :: post ∧ q.2 < r.2 ∧
           (∀ p ∈ pre, p.2 < r.2) ∧ (∀ p ∈ post, p.2 ≤ r.2))) := by
  intro c
  induction c with
  | nil => intro q; exact ⟨q, rfl, Or.inl ⟨rfl, by simp⟩⟩
  | cons p c ih =>
    intro q
    rw [List.foldl_cons]
    by_cases hlt : q.2 < p.2
    · rw [show (match some q with
          | none => some p
          | some q' => if q'.2 < p.2 then some p else some q') = some p by
        simp [hlt]]
      obtain ⟨r, hr, hcase⟩ := ih p
      refine ⟨r, hr, ?_⟩
      rcases hcase with ⟨he, hall⟩ | ⟨pre, post, hsplit, hqr, hpre, hpost⟩
      · subst he
        exact Or.inr ⟨[], c, rfl, hlt, by simp, hall⟩
      · refine Or.inr ⟨p :: pre, post, by rw [hsplit, List.cons_append],
          Nat.lt_trans hlt hqr, ?_, hpost⟩
        intro p' hp'
        rcases List.mem_cons.mp hp' with he | he
        · rw [he]
          exact hqr
        · exact hpre p' he
    · rw [show (match some q with
          | none => some p
          | some q' => if q'.2 < p.2 then some p else some q') = some q by
        simp [hlt]]
      obtain ⟨r, hr, hcase⟩ := ih q
      refine ⟨r, hr, ?_⟩
      rcases hcase with ⟨he, hall⟩ | ⟨pre, post, hsplit, hqr, hpre, hpost⟩
      · subst he
        refine Or.inl ⟨rfl, ?_⟩
        intro p' hp'
        rcases List.mem_cons.mp hp' with he | he
        · rw [he]
          omega
        · exact hall p' he
      · refine Or.inr ⟨p :: pre, post, by rw [hsplit, List.cons_append],
          hqr, ?_, hpost⟩
        intro p' hp'
        rcases List.mem_cons.mp hp' with he | he
        · rw [he]
          omega
        · exact hpre p' he

theorem most_common_split (c : List (String × Nat)) (s : String)
    (h : most_common_1 c = some s) :
    ∃ pre n post, c = pre ++ (s, n) :: post ∧ (∀ p ∈ pre, p.2 < n) ∧
      (∀ p ∈ post, p.2 ≤ n) := by
  match c with
  | [] => simp [most_common_1] at h
  | p0 :: c' =>
    rw [most_common_1, List.foldl_cons] at h
    obtain ⟨r, hr, hcase⟩ := mc_fold_spec c' p0
    rw [show (match (none : Option (String × Nat)) with
        | none => some p0
        | some q' => if q'.2 < p0.2 then some p0 else some q') = some p0
      from rfl, hr] at h
    simp only [option_map_some, Option.some.injEq] at h
    rcases hcase with ⟨he, hall⟩ | ⟨pre, post, hsplit, hqr, hpre, hpost⟩
    · subst he
      refine ⟨[], r.2, c', ?_, by simp, hall⟩
      simp only [List.nil_append, List.cons.injEq, and_true]
      rw [← h]
    · refine ⟨p0 :: pre, r.2, post, ?_, ?_, hpost⟩
      · rw [hsplit, ← h]
        simp
      · intro p' hp'
        rcases List.mem_cons.mp hp' with he | he
        · rw [he]
          exact hqr
        · exact hpre p' he

/-- C6: `AssignmentNormalizer` in autodetect mode (`equal_sign_type` left at
`None`).  When fewer than two distinct assignment signs are observed the
document is returned untouched and the file state passes through; when at
least two distinct signs are observed the detector elects a sign `s` that
occurs in the document, every assignment site is rewritten to end with `s`
(previous marker stripped first), and `s` is a most frequent sign: no sign
occurs more often among the document's assignment markers. -/
theorem an_autodetect_law (doc : List AItem) (fs : Option String) :
    ((an_counter doc).length < 2 → an_process_file none fs doc = (doc, fs)) ∧
    (2 ≤ (an_counter doc).length →
      ∃ s, an_detect doc = some s ∧
        (an_process_file none fs doc).1 = doc.map (an_spec_item s) ∧
        s ∈ an_signs doc ∧
        ∀ t ∈ an_signs doc,
          (an_signs doc).count t ≤ (an_signs doc).count s) := by
  constructor
  · intro h
    have hd : an_detect doc = none := by
      rw [an_detect, if_neg (by omega)]
    simp [an_process_file, hd]
  · intro h
    obtain ⟨s, hs⟩ : ∃ s, most_common_1 (an_counter doc) = some s := by
      cases hc : an_counter doc with
      | nil => rw [hc] at h; simp at h
      | cons p0 c' =>
        obtain ⟨r, hr, -⟩ := mc_fold_spec c' p0
        refine ⟨r.1, ?_⟩
        rw [most_common_1, List.foldl_cons]
        rw [show (match (none : Option (String × Nat)) with
            | none => some p0
            | some q' => if q'.2 < p0.2 then some p0 else some q') = some p0
          from rfl, hr]
        rfl
    have hdet : an_detect doc = some s := by
      rw [an_detect, if_pos h]
      exact hs
    have h1 : an_process_file none fs doc =
        (doc.map (an_norm_item none (some s)), none) := by
      simp [an_process_file, hdet]
    have hout : (an_process_file none fs doc).1 = doc.map (an_spec_item s) := by
      rw [h1]
      exact List.map_congr_left (fun it _ => an_norm_item_spec s it)
    obtain ⟨prel, n, postl, hsplit, hprel, hpostl⟩ :=
      most_common_split (an_counter doc) s hs
    have inv := counter_fold_invariant (an_signs doc) [] []
      (by simp) (by simp) (by simp)
    have hcount : ∀ p ∈ an_counter doc, p.2 = (an_signs doc).count p.1 := by
      intro p hp
      have hh := inv.1 p (by rw [an_counter] at hp; exact hp)
      rwa [List.nil_append] at hh
    have hkeys : ∀ k, k ∈ (an_counter doc).map Prod.fst ↔
        k ∈ an_signs doc := by
      intro k
      have hh := inv.2.1 k
      rw [List.nil_append] at hh
      rw [an_counter]
      exact hh
    have hsmem : (s, n) ∈ an_counter doc := by
      rw [hsplit]
      exact List.mem_append_right _ (List.mem_cons_self _ _)
    have hsn : n = (an_signs doc).count s := hcount (s, n) hsmem
    have hsin : s ∈ an_signs doc :=
      (hkeys s).mp (List.mem_map_of_mem Prod.fst hsmem)
    refine ⟨s, hdet, hout, hsin, ?_⟩
    intro t ht
    obtain ⟨p, hp, hpt⟩ := List.mem_map.mp ((hkeys t).mpr ht)
    have hcnt : (an_signs doc).count t = p.2 := by
      rw [← hpt]
      exact (hcount p hp).symm
    have hple : p.2 ≤ n := by
      rw [hsplit] at hp
      rcases List.mem_append.mp hp with h1 | h1
      · exact le_of_lt (hprel p h1)
      · rcases List.mem_cons.mp h1 with h2 | h2
        · subst h2
          exact Nat.le_refl n
        · exact hpostl p h2
    rw [hcnt, ← hsn]
    exact hple

/-- Witness for C6 at the claim's own tallies: `docC6` counts the signs
`'=' : 3, ' =' : 2, '' : 1`; autodetection elects `'='` and every
assignment site is normalized to end with `'='`. -/
theorem an_autodetect_law_witness :
    2 ≤ (an_counter docC6).length ∧
    an_detect docC6 = some "=" ∧
    (an_process_file none none docC6).1 = docC6.map (an_spec_item "=") := by
  obtain ⟨s, h1, h2, -, -⟩ := (an_autodetect_law docC6 none).2 (by decide)
  have hd : an_detect docC6 = some "=" := by decide
  rw [hd] at h1
  have hs : s = "=" := (Option.some.inj h1).symm
  subst hs
  exact ⟨by decide, hd, h2⟩

theorem counter_keys_order :
    ∀ (seq pre : List String) (acc : List (String × Nat)),
      (∀ k, k ∈ acc.map Prod.fst ↔ k ∈ pre) →
      List.Pairwise (fun a b =>
        (pre ++ seq).indexOf a < (pre ++ seq).indexOf b) (acc.map Prod.fst) →
      List.Pairwise (fun a b =>
        (pre ++ seq).indexOf a < (pre ++ seq).indexOf b)
        ((seq.foldl counter_add acc).map Prod.fst) := by
  intro seq
  induction seq with
  | nil =>
    intro pre acc _ h2
    exact h2
  | cons x seq ih =>
    intro pre acc h1 h2
    rw [List.foldl_cons]
    have hfull : pre ++ x :: seq = (pre ++ [x]) ++ seq := by simp
    rw [hfull] at h2 ⊢
    refine ih (pre ++ [x]) (counter_add acc x) ?_ ?_
    · intro k
      by_cases hx : acc.any (fun q => decide (q.1 = x)) = true
      · rw [counter_add_keys acc x hx]
        have hxp : x ∈ pre := (h1 x).mp ((counter_any_iff acc x).mp hx)
        rw [h1 k]
        constructor
        · intro hk
          exact List.mem_append_left _ hk
        · intro hk
          rcases List.mem_append.mp hk with hk | hk
          · exact hk
          · simp only [List.mem_singleton] at hk
            exact hk ▸ hxp
      · rw [counter_add, if_neg hx, List.map_append]
        simp only [List.map_cons, List.map_nil, List.mem_append,
          List.mem_singleton, h1 k]
    · by_cases hx : acc.any (fun q => decide (q.1 = x)) = true
      · rw [counter_add_keys acc x hx]
        exact h2
      · rw [counter_add, if_neg hx, List.map_append]
        simp only [List.map_cons, List.map_nil]
        rw [List.pairwise_append]
        refine ⟨h2, by simp, ?_⟩
        intro a ha b hb
        simp only [List.mem_singleton] at hb
        rw [hb]
        have hap : a ∈ pre := (h1 a).mp ha
        have hxnp : x ∉ pre := fun hmem =>
          hx ((counter_any_iff acc x).mpr ((h1 x).mpr hmem))
        have hlt : ((pre ++ [x]) ++ seq).indexOf a < pre.length := by
          rw [List.indexOf_append_of_mem (List.mem_append_left _ hap),
              List.indexOf_append_of_mem hap]
          exact List.indexOf_lt_length.mpr hap
        have heq : ((pre ++ [x]) ++ seq).indexOf x = pre.length := by
          rw [List.indexOf_append_of_mem
                (List.mem_append_right _ (List.mem_singleton_self x)),
              List.indexOf_append_of_not_mem hxnp, List.indexOf_cons_self]
          omega
        omega

/-- C10: when autodetection elects sign `s`, any sign `t` occurring in the
document whose tally equals the tally of `s` (a tie for most frequent) has
its first occurrence no earlier than the first occurrence of `s`: the
`Counter` preserves first-insertion order and `most_common` keeps the first
maximal entry, so the elected sign is the tied style first seen in
traversal order — deterministic across repeated runs. -/
theorem an_tie_break_first_occurrence (doc : List AItem) (s t : String)
    (hdet : an_detect doc = some s) (ht : t ∈ an_signs doc)
    (htie : (an_signs doc).count t = (an_signs doc).count s) :
    (an_signs doc).indexOf s ≤ (an_signs doc).indexOf t := by
  have hmc : most_common_1 (an_counter doc) = some s := by
    by_cases h : 2 ≤ (an_counter doc).length
    · rw [an_detect, if_pos h] at hdet
      exact hdet
    · rw [an_detect, if_neg h] at hdet
      exact absurd hdet (by simp)
  obtain ⟨prel, n, postl, hsplit, hprel, hpostl⟩ :=
    most_common_split (an_counter doc) s hmc
  have inv := counter_fold_invariant (an_signs doc) [] []
    (by simp) (by simp) (by simp)
  have hcount : ∀ p ∈ an_counter doc, p.2 = (an_signs doc).count p.1 := by
    intro p hp
    have hh := inv.1 p (by rw [an_counter] at hp; exact hp)
    rwa [List.nil_append] at hh
  have hkeys : ∀ k, k ∈ (an_counter doc).map Prod.fst ↔
      k ∈ an_signs doc := by
    intro k
    have hh := inv.2.1 k
    rw [List.nil_append] at hh
    rw [an_counter]
    exact hh
  have horder : List.Pairwise (fun a b =>
      (an_signs doc).indexOf a < (an_signs doc).indexOf b)
      ((an_counter doc).map Prod.fst) := by
    have hh := counter_keys_order (an_signs doc) [] [] (by simp) (by simp)
    rw [List.nil_append] at hh
    rw [an_counter]
    exact hh
  have hsmem : (s, n) ∈ an_counter doc := by
    rw [hsplit]
    exact List.mem_append_right _ (List.mem_cons_self _ _)
  have hsn : n = (an_signs doc).count s := hcount (s, n) hsmem
  obtain ⟨p, hp, hpt⟩ := List.mem_map.mp ((hkeys t).mpr ht)
  have hpn : p.2 = n := by
    rw [hcount p hp, hpt, htie, hsn]
  have hkeq : (an_counter doc).map Prod.fst =
      prel.map Prod.fst ++ s :: postl.map Prod.fst := by
    rw [hsplit]
    simp
  rw [hsplit] at hp
  rcases List.mem_append.mp hp with h1 | h1
  · exact absurd hpn (Nat.ne_of_lt (hprel p h1))
  · rcases List.mem_cons.mp h1 with h2 | h2
    · have : t = s := by rw [← hpt, h2]
      rw [this]
    · rw [hkeq] at horder
      obtain ⟨-, hsb, -⟩ := List.pairwise_append.mp horder
      have hsB := (List.pairwise_cons.mp hsb).1
      have htB : t ∈ postl.map Prod.fst := by
        rw [← hpt]
        exact List.mem_map_of_mem Prod.fst h2
      exact le_of_lt (hsB t htB)

/-- Witness for C10: in `docC10` the signs `'='` and `' ='` are tied with
two occurrences each; `'='` occurs first and is elected. -/
theorem an_tie_break_first_occurrence_witness :
    an_detect docC10 = some "=" ∧ " =" ∈ an_signs docC10 ∧
    (an_signs docC10).count " =" = (an_signs docC10).count "=" ∧
    (an_signs docC10).indexOf "=" ≤ (an_signs docC10).indexOf " =" :=
  ⟨by decide, by decide, by decide,
    an_tie_break_first_occurrence docC10 "=" " =" (by decide) (by decide)
      (by decide)⟩

theorem enum_fold_eval (xs : List String) :
    ∀ (k : Nat) (look : Nat → Nat) (i : Nat),
      ((enum_from k xs).foldl av_tok_step look) i =
      match xs.get? (i - k) with
      | some v => if k ≤ i then max (look i) v.length else look i
      | none => look i := by
  induction xs with
  | nil =>
    intro k look i
    simp [enum_from]
  | cons x xs ih =>
    intro k look i
    rw [enum_from, List.foldl_cons, ih (k + 1) (av_tok_step look (k, x)) i]
    by_cases hik : i = k
    · rw [hik, show k - (k + 1) = 0 from by omega, Nat.sub_self]
      cases hg : xs.get? 0 <;>
        simp [hg, av_tok_step, Nat.not_succ_le_self]
    · by_cases hki : k ≤ i
      · have hki1 : k + 1 ≤ i := by omega
        rw [show i - k = (i - (k + 1)) + 1 from by omega,
          List.get?_cons_succ]
        cases hg : xs.get? (i - (k + 1)) <;>
          simp [hg, av_tok_step, hik, hki, hki1]
      · have h0 : i - k = 0 := by omega
        have h1 : i - (k + 1) = 0 := by omega
        have hn1 : ¬ (k + 1 ≤ i) := by omega
        rw [h0, h1]
        cases hg : xs.get? 0 <;>
          simp [hg, av_tok_step, hik, hki, hn1]

theorem av_line_step_eval (cfg : AVConfig) (look : Nat → Nat)
    (line : List String) (i : Nat) :
    av_line_step cfg look line i =
      match (if i < av_lookup_line_up_to cfg line then line.get? i
             else none) with
      | some v => max (look i) v.length
      | none => look i := by
  rw [av_line_step,
    enum_fold_eval (line.take (av_lookup_line_up_to cfg line)) 0 look i,
    Nat.sub_zero]
  by_cases hi : i < av_lookup_line_up_to cfg line
  · rw [if_pos hi, List.get?_take hi]
    cases hg : line.get? i <;> simp [hg, Nat.zero_le]
  · rw [if_neg hi]
    have hnone :
        (line.take (av_lookup_line_up_to cfg line)).get? i = none := by
      rw [List.get?_eq_none, List.length_take]
      omega
    rw [hnone]

theorem av_stmt_step_eval (cfg : AVConfig) (i : Nat) :
    ∀ (st : List (List String)) (look : Nat → Nat),
      av_stmt_step cfg look st i =
        (av_line_entries cfg i st).foldl max (look i) := by
  intro st
  induction st with
  | nil =>
    intro look
    rfl
  | cons line st ih =>
    intro look
    have hfold : av_stmt_step cfg look (line :: st) =
        av_stmt_step cfg (av_line_step cfg look line) st := rfl
    rw [hfold, ih (av_line_step cfg look line), av_line_step_eval]
    by_cases hi : i < av_lookup_line_up_to cfg line
    · rw [if_pos hi]
      cases hg : line.get? i with
      | some v =>
        have hf : av_line_entries cfg i (line :: st) =
            v.length :: av_line_entries cfg i st := by
          rw [av_line_entries, List.filterMap_cons, if_pos hi, hg]
          rfl
        rw [hf, List.foldl_cons]
      | none =>
        have hf : av_line_entries cfg i (line :: st) =
            av_line_entries cfg i st := by
          rw [av_line_entries, List.filterMap_cons, if_pos hi, hg]
          rfl
        rw [hf]
    · rw [if_neg hi]
      have hf : av_line_entries cfg i (line :: st) =
          av_line_entries cfg i st := by
        rw [av_line_entries, List.filterMap_cons, if_neg hi]
        rfl
      rw [hf]

theorem create_look_up_raw_entries (cfg : AVConfig)
    (stmts : List (List (List String))) (i : Nat) :
    create_look_up_raw cfg stmts i =
      (av_col_entries cfg stmts i).foldl max 0 := by
  have hrw : create_look_up_raw cfg stmts =
      stmts.foldl (av_stmt_step cfg) (fun _ => 0) := rfl
  have hcol : av_col_entries cfg stmts i =
      stmts.flatMap (av_line_entries cfg i) := rfl
  rw [hrw, hcol]
  suffices h : ∀ (ss : List (List (List String))) (look : Nat → Nat),
      (ss.foldl (av_stmt_step cfg) look) i =
        (ss.flatMap (av_line_entries cfg i)).foldl max (look i) by
    simpa using h stmts (fun _ => 0)
  intro ss
  induction ss with
  | nil =>
    intro look
    rfl
  | cons st ss ih =>
    intro look
    rw [List.foldl_cons, ih (av_stmt_step cfg look st), av_stmt_step_eval,
      List.flatMap_cons, List.foldl_append]

/-- C4 (corrected): the width `create_look_up` stores for column `i` is the
maximum length of the tokens standing at column `i` within each line's
lookup slice — `line[:up_to_column]` when bounded, the WHOLE line when
unbounded (not "all but the last two columns") — rounded up to the next
multiple of four; and (with `min_width` unset) the separator emitted after
a token in a column before the boundary has length
`lookup[col] - len(token) + 4`. -/
theorem av_alignment_law (cfg : AVConfig) (fcfg : FormattingConfig)
    (stmts : List (List (List String))) (i : Nat)
    (hmw : cfg.min_width = 0) :
    create_look_up cfg stmts i =
      round_to_four ((av_col_entries cfg stmts i).foldl max 0) ∧
    (∀ (up_to : Int) (v : String), (i : Int) < up_to →
      v.length ≤ create_look_up cfg stmts i →
      (calc_separator cfg fcfg i up_to v (create_look_up cfg stmts)).length =
        create_look_up cfg stmts i - v.length + 4) := by
  constructor
  · rw [create_look_up, create_look_up_raw_entries]
  · intro up_to v hlt hle
    rw [calc_separator, if_pos hlt,
      if_neg (show ¬cfg.min_width ≠ 0 from fun h => h hmw)]
    have hsp : ∀ n, (spaces n).length = n := by
      intro n
      rw [spaces]
      show (List.replicate n ' ').length = n
      exact List.length_replicate n ' '
    rw [hsp]
    omega

/-- Witness for C4 at the claim's bounded instance: `up_to_column=2`
(internal bound 1) with column-0 token lengths 4 and 14 gives a column-0
width of 16, and the shorter row's separator after column 0 has length
`16 - 4 + 4 = 16`. -/
theorem av_alignment_law_witness :
    create_look_up cfgB stmtsB 0 = 16 ∧
    (calc_separator cfgB cfgD 0 1 "dddd" (create_look_up cfgB stmtsB)).length
      = 16 := by
  have h := (av_alignment_law cfgB cfgD stmtsB 0 rfl).2 1 "dddd"
    (by decide) (by decide)
  refine ⟨by decide, ?_⟩
  rw [h]
  decide

/-- Counterexample to C4's unbounded clause: with `up_to_column` unbounded
the lookup scans ALL columns of every row, not "all but the last two".  In
`stmtsU` the long token `aaaaaaaaaa` sits at column 1 inside its own row's
last-two slice, yet the code's column-1 width is 12 while the claim's
"all but the last two" width is 4, and the emitted separator after the
column-1 token `x` of the other row is 15 spaces (the claim would predict
`4 - 1 + 4 = 7`). -/
theorem av_alignment_law_cex :
    create_look_up cfgU stmtsU 1 = 12 ∧
    claim_all_but_last_two_look_up stmtsU 1 = 4 ∧
    av_align_line cfgU cfgD (create_look_up cfgU stmtsU)
      ["wwww", "x", "y", "\n"] =
      ["wwww", spaces 4, "x", spaces 15, "y", "\n"] :=
  ⟨by decide, by decide, by decide⟩

end Robotidy
